import Mathlib

/-!
Shallow embedding of the MatrixView library (files `MatrixView.class.js`,
`MatrixView.manipulation.js`, `MatrixView.iterators.js`, `Iterators.class.js`,
`MatrixView.extraction.js`, `Check.object.js`) and proofs about the claims of
the specification.

Modelling conventions:
* JavaScript numbers that occur in this code are integers (dimension sizes,
  strides, buffer offsets); they are modelled as `Int`.  The single place where
  a non-integer float is produced (`Math.floor(Math.abs((e-a)/s))` in
  `selectDimByColon`) is modelled with exact rational arithmetic.
* A JS array cell can hold a number, `undefined` (also reads out of range),
  `NaN` (the result of arithmetic on `undefined`), or - after the
  `selectDimByIndices` indexed-branch bug - a nested array.  This is captured
  by the inductive `JsVal`.  Arithmetic on non-numbers yields `nan`;
  the states evaluated by the theorems below never perform arithmetic on
  an `arr` value (JS would coerce), only on numbers and on `undef` reads,
  for which `nan` is the exact JS result.
* `while` loops are modelled with an explicit fuel parameter; the theorems
  either run at concrete inputs (where the fuel is visibly sufficient) or
  prove that the supplied fuel never runs out.
-/

/-- Model of a JavaScript value stored in one of the view's arrays:
a number, `undefined` (missing cell), `NaN`, or a nested array
(which the `selectDimByIndices` bug can store). -/
inductive JsVal where
  | undef : JsVal
  | nan : JsVal
  | num (n : Int) : JsVal
  | arr (l : List JsVal) : JsVal
deriving Repr

namespace JsVal

/-- JS `+` on the values that occur here: number + number is exact;
any operand that is `undefined` or `NaN` gives `NaN` (the code never adds
an array, which JS would coerce). -/
def jadd : JsVal → JsVal → JsVal
  | num a, num b => num (a + b)
  | _, _ => nan

/-- JS `-` with the same conventions as `jadd`. -/
def jsub : JsVal → JsVal → JsVal
  | num a, num b => num (a - b)
  | _, _ => nan

/-- JS `*` with the same conventions as `jadd`. -/
def jmul : JsVal → JsVal → JsVal
  | num a, num b => num (a * b)
  | _, _ => nan

/-- JS strict equality `===` restricted to the values compared by this code:
two numbers compare by value, `NaN === x` is always false,
`undefined === undefined` is true.  Distinct arrays are never compared
with `===` in the modelled code paths, so `arr` compares false. -/
def jeqb : JsVal → JsVal → Bool
  | num a, num b => a == b
  | undef, undef => true
  | _, _ => false

/-- JS truthiness for the `x || d` defaulting idiom: `undefined`, `NaN`
and `0` are falsy. -/
def truthy : JsVal → Bool
  | undef => false
  | nan => false
  | num n => n != 0
  | arr _ => true

/-- JS `x || d` where `d` is a number default. -/
def jor (v : JsVal) (d : Int) : JsVal :=
  if v.truthy then v else num d

end JsVal

open JsVal

/-- Read of a JS array cell: out of range (or a hole) is `undefined`. -/
def jget (l : List JsVal) (i : Nat) : JsVal :=
  l.getD i JsVal.undef

/-- JS array cell assignment `l[i] = v`: assigning past the end extends the
array with holes (`undefined`). -/
def jset (l : List JsVal) (i : Nat) (v : JsVal) : List JsVal :=
  if i < l.length then l.set i v
  else (l ++ List.replicate (i + 1 - l.length) JsVal.undef).set i v

/-- Assignment on the sparse per-dimension index-list array
(`none` is a hole). -/
def osetIdx (l : List (Option (List JsVal))) (i : Nat) (v : Option (List JsVal)) :
    List (Option (List JsVal)) :=
  if i < l.length then l.set i v
  else (l ++ List.replicate (i + 1 - l.length) none).set i v

/-- Assignment on the size array.  JS can in principle leave holes here when a
selection addresses a dimension past the rank; every read of `size` goes
through `getSize`, which maps a hole to `1`, so the hole is padded with `1`.
No state evaluated below contains such a pad. -/
def isetSize (l : List Int) (i : Nat) (v : Int) : List Int :=
  if i < l.length then l.set i v
  else (l ++ List.replicate (i + 1 - l.length) 1).set i v

/-- Generic JS `swap(tab, i, j)` helper of `MatrixView.class.js`
(`tmp = tab[i]; tab[i] = tab[j]; tab[j] = tmp;`). -/
def jswap (l : List JsVal) (i j : Nat) : List JsVal :=
  jset (jset l i (jget l j)) j (jget l i)

/-- The `swap` helper on the sparse indices array. -/
def oswap (l : List (Option (List JsVal))) (i j : Nat) :
    List (Option (List JsVal)) :=
  osetIdx (osetIdx l i (l.getD j none)) j (l.getD i none)

/-- The `swap` helper on the size array. -/
def iswap (l : List Int) (i j : Nat) : List Int :=
  isetSize (isetSize l i (l.getD j 1)) j (l.getD i 1)

/-- Per-view descriptor state: the four parallel arrays `first`, `step`,
`size`, `indices` of `MatrixView.class.js`.  A dimension `d` is Indexed iff
`indices[d]` is set (`Check.isSet(indices[d])`). -/
structure Core where
  first : List JsVal
  step : List JsVal
  size : List Int
  indices : List (Option (List JsVal))
deriving Repr

namespace Core

/-- Source `getDimLength`: `size.length`. -/
def getDimLength (c : Core) : Nat :=
  c.size.length

/-- Source `getLength`: product of `size` entries. -/
def getLength (c : Core) : Int :=
  c.size.foldl (· * ·) 1

/-- Source `isIndicesIndexed`: `Check.isSet(indices[d])`. -/
def isIndicesIndexed (c : Core) (d : Nat) : Bool :=
  (c.indices.getD d none).isSome

/-- Source `getSize(d)`: `Check.isSet(size[d]) ? size[d] : 1`. -/
def getSize (c : Core) (d : Nat) : Int :=
  c.size.getD d 1

/-- Source `getFirst`: `Check.isSet(first[d]) ? first[d] : 0`. -/
def getFirst (c : Core) (d : Nat) : JsVal :=
  match jget c.first d with
  | .undef => .num 0
  | v => v

/-- Value returned by `getStep` when dimension `d` is not Indexed
(`Check.isSet(step[d]) ? step[d] : 1`); every internal call site of
`getStep` is guarded by `isIndicesIndexed`. -/
def getStepVal (c : Core) (d : Nat) : JsVal :=
  match jget c.step d with
  | .undef => .num 1
  | v => v

/-- Source `getStep`: throws `'MatrixView.getStep: dimension is indexed by
indices.'` on an Indexed dimension. -/
def getStep (c : Core) (d : Nat) : Except String JsVal :=
  if c.isIndicesIndexed d then
    .error "MatrixView.getStep: dimension is indexed by indices."
  else
    .ok (c.getStepVal d)

/-- Value form of `getEnd` (the function never throws for a valid dimension
index): `-1` on an Indexed dimension, otherwise
`(first[d] || 0) + s * (step[d] || 1)` with `s = isSet(size[d]) ? size[d] : 1`. -/
def getEndVal (c : Core) (d : Nat) : JsVal :=
  if c.isIndicesIndexed d then .num (-1)
  else
    jadd (jor (jget c.first d) 0) (jmul (.num (c.size.getD d 1)) (jor (jget c.step d) 1))

/-- Source `getEnd` as the code exposes it: an `Except` like `getStep`, but
the Indexed case is a normal return of the sentinel `-1`, not an error. -/
def getEnd (c : Core) (d : Nat) : Except String JsVal :=
  .ok (c.getEndVal d)

/-- Source `getIndices` (the `.slice()` copy is the identity on values);
internal call sites are guarded by `isIndicesIndexed`. -/
def getIndices (c : Core) (d : Nat) : List JsVal :=
  (c.indices.getD d none).getD []

/-- Source `getSteps` (`MatrixView.class.js` lines 1174-1192): successive
differences of the index list, first entry forced to `0`, with a trailing
wrap delta `-(last + 1)`. -/
def getSteps (c : Core) (d : Nat) : List JsVal :=
  let ind := c.getIndices d
  let steps := (List.range ind.length).map (fun i =>
    if i = 0 then jget ind 0 else jsub (jget ind i) (jget ind (i - 1)))
  let last := jget ind (ind.length - 1)
  jset (steps ++ [jsub (.num (-1)) last]) 0 (.num 0)

end Core

/-- Source `Check.checkColon` restricted to the list form `[a]`, `[a,b]`,
`[a,s,b]` with a known non-negative `length` (the form every internal call
uses): resolves negative indices against `length`, bound-checks both ends
against `[0, length)`, and defaults the step to `±1`; a present step `s`
is rejected when `(b - a) * s < 0`. -/
def checkColon (c : List Int) (length : Int) : Option (Int × Int × Int) :=
  if length < 0 then none
  else
    let abs? : Option (Int × Option Int × Int) :=
      match c with
      | [x] => some (x, none, x)
      | [x, y] => some (x, none, y)
      | [x, s, y] => some (x, some s, y)
      | _ => none
    match abs? with
    | none => none
    | some (a0, s?, b0) =>
      let a := if a0 ≥ 0 then a0 else a0 + length
      let b := if b0 ≥ 0 then b0 else b0 + length
      if ¬ (0 ≤ a ∧ a ≤ length - 1 ∧ 0 ≤ b ∧ b ≤ length - 1) then none
      else
        match s? with
        | none => some (a, (if a ≤ b then 1 else -1), b)
        | some s => if (b - a) * s < 0 then none else some (a, s, b)

/-- Loop of the Indexed branch of `selectDimByColon`:
`for (i = sel[0]; i <= ie; i += s) indOut.push(ind[i]);`.
The fuel covers every terminating run (`s = 0` with `a ≤ b` loops forever in
JS and is not evaluated by any theorem below). -/
def collectColon (ind : List JsVal) : Int → Int → Int → Nat → List JsVal
  | _, _, _, 0 => []
  | a, s, b, Nat.succ fuel =>
    if a ≤ b then jget ind a.toNat :: collectColon ind (a + s) s b fuel
    else []

namespace Core

/-- Source `selectDimByColon` (`MatrixView.class.js` lines 1446-1467).
Strided branch: `first' = first + a*step; step' = step*s;
size' = Math.floor(Math.abs((b - a) / s)) + 1` (the float division is modelled
exactly by rational arithmetic; for `s = 0` JS produces `Infinity`, which has
no integer counterpart - no theorem below evaluates that case).
Indexed branch: gathers `ind[a : b : s]` inclusive and makes the new head the
dimension's `first`. -/
def selectDimByColon (c : Core) (d : Nat) (sel : List Int) : Option Core :=
  (checkColon sel (c.getSize d)).map (fun r =>
    let a : Int := r.1
    let s : Int := r.2.1
    let b : Int := r.2.2
    if ¬ c.isIndicesIndexed d then
      { c with
        first := jset c.first d (jadd (c.getFirst d) (jmul (.num a) (c.getStepVal d))),
        step := jset c.step d (jmul (c.getStepVal d) (.num s)),
        size := isetSize c.size d (Int.floor |(((b - a : Int) : ℚ) / ((s : Int) : ℚ))| + 1) }
    else
      let ind := c.getIndices d
      let indOut := collectColon ind a s b ((b - a).natAbs + 1)
      { c with
        first := jset c.first d (jget indOut 0),
        indices := osetIdx c.indices d (some indOut),
        size := isetSize c.size d indOut.length })

/-- Source `selectDimByIndices` (`MatrixView.class.js` lines 1498-1531).
Validation: each entry must lie in `[0, getSize(d) - 1]`.
Strided branch: entries become `ind[i]*step + first`.
Indexed branch: the code executes `ind[i] = indices[ind[i]]`, which reads the
view-level `indices` array (whose cells are per-dimension index lists), not
`indices[d]`; a cell that is a hole reads `undefined`, a set cell reads as an
array value.  If the head of the result is `undefined` it is patched to `-1`
before being stored in `first[d]`. -/
def selectDimByIndices (c : Core) (d : Nat) (ind : List Int) : Option Core :=
  if ¬ ind.all (fun x => 0 ≤ x ∧ x ≤ c.getSize d - 1) then none
  else
    let indJ : List JsVal :=
      if ¬ c.isIndicesIndexed d then
        ind.map (fun x => jadd (jmul (.num x) (c.getStepVal d)) (c.getFirst d))
      else
        ind.map (fun x =>
          match c.indices.getD x.toNat none with
          | none => JsVal.undef
          | some l => JsVal.arr l)
    let indP : List JsVal :=
      match jget indJ 0 with
      | .undef => jset indJ 0 (.num (-1))
      | _ => indJ
    some { c with
      first := jset c.first d (jget indP 0),
      step := jset c.step d (.num 1),
      size := isetSize c.size d (indP.length : Int),
      indices := osetIdx c.indices d (some indP) }

/-- Source `_pushSingletonDimensions`: appends `n` strided singleton
dimensions `{first: 0, step: 1, size: 1}` (the `indices` array is not
extended). -/
def pushSingletonDimensions (c : Core) (n : Nat) : Core :=
  { c with
    first := c.first ++ List.replicate n (.num 0),
    step := c.step ++ List.replicate n (.num 1),
    size := c.size ++ List.replicate n 1 }

/-- Source `swapDimensions`: pads the rank with trailing singletons when a
swapped position lies beyond it, then exchanges the cells of the four
descriptor arrays. -/
def swapDimensions (c : Core) (a b : Nat) : Core :=
  let n : Int := (max a b : Int) + 1 - (c.getDimLength : Int)
  let c := if 0 < n then pushSingletonDimensions c n.toNat else c
  { first := jswap c.first a b,
    step := jswap c.step a b,
    size := iswap c.size a b,
    indices := oswap c.indices a b }

/-- Stripping loop of the no-argument `shiftDimension`:
`while (size.length > 0 && size[0] === 1) { first.shift(); step.shift();
size.shift(); }`. -/
def stripLead (f s : List JsVal) : List Int → (List JsVal × List JsVal × List Int)
  | h :: t => if h = 1 then stripLead f.tail s.tail t else (f, s, h :: t)
  | [] => (f, s, [])

/-- Source `shiftDimension()` with no argument (`MatrixView.class.js`
lines 1640-1653): strips leading size-1 dimensions, then re-pads one trailing
singleton exactly when the remaining rank is 1.  The `indices` array is not
touched by this function. -/
def shiftDimension (c : Core) : Core :=
  let r := stripLead c.first c.step c.size
  if r.2.2.length = 1 then
    ⟨r.1 ++ [.num 0], r.2.1 ++ [.num 1], r.2.2 ++ [1], c.indices⟩
  else
    ⟨r.1, r.2.1, r.2.2, c.indices⟩

/-- Rotated index list computed by the local `selectDim` helper of
`circshift` (`MatrixView.manipulation.js` lines 636-649):
`k %= size` (JS truncated remainder), then
`[start .. start+end-1] ++ [0 .. size-end-1]` with
`start = k > 0 ? size - k : -k` and `end = k > 0 ? k : size + k`. -/
def circshiftSel (c : Core) (k : Int) (dim : Nat) : List Int :=
  let size := c.getSize dim
  let k := Int.tmod k size
  let start := if k > 0 then size - k else -k
  let endv := if k > 0 then k else size + k
  (List.range endv.toNat).map (fun j => start + (j : Int)) ++
    (List.range (size - endv).toNat).map (fun j => (j : Int))

/-- The `selectDim` helper of `circshift`: computes the rotated list and
applies `selectDimByIndices` to the targeted dimension. -/
def circshiftDim (c : Core) (k : Int) (dim : Nat) : Option Core :=
  selectDimByIndices c dim (circshiftSel c k dim)

/-- Source `circshift(K, dim)` in its scalar form (`K` integer, `dim` a
non-negative integer). -/
def circshift (c : Core) (K : Int) (dim : Nat) : Option Core :=
  circshiftDim c K dim

/-- Source `circshift(K)` in its vector form: applies `selectDim` to
dimensions `0 .. K.length-1` in order; invalid when `K` is longer than the
rank. -/
def circshiftVec (c : Core) (K : List Int) : Option Core :=
  if K.length > c.getDimLength then none
  else (List.range K.length).foldlM (fun c k => circshiftDim c (K.getD k 0) k) c

/-- Inner `while (true)` cycle loop of `permute`
(`MatrixView.manipulation.js` lines 476-488): follows the cycle of `i`
through the (mutated) `dim` array, swapping dimensions along the way.
The fuel is an upper bound on the cycle length; `permuteGo` passes
`dim.length + 1`, which never runs out on a valid permutation (proved
below). -/
def permuteCycleGo : Nat → List Nat → Nat → Nat → Core → (List Nat × Core)
  | 0, D, _, _, c => (D, c)
  | Nat.succ fuel, D, i, j, c =>
    let k := D.getD j 0
    let D1 := D.set j j
    if k = i then (D1, c)
    else permuteCycleGo fuel D1 i k (swapDimensions c j k)

/-- Outer loop of `permute`: runs the cycle loop for `i = 0 .. ndims-1`. -/
def permuteGo : Nat → Nat → List Nat → Core → Core
  | _, 0, _, c => c
  | i, Nat.succ cnt, D, c =>
    let r := permuteCycleGo (D.length + 1) D i i c
    permuteGo (i + 1) cnt r.1 r.2

/-- Source `permute(dim)`: rejects `dim` shorter than the rank and any `dim`
that does not hit every index of `[0, dim.length)`; then reorders the view by
the cycle-following swap loop. -/
def permute (P : List Nat) (c : Core) : Option Core :=
  if P.length < c.getDimLength then none
  else if ¬ (List.range P.length).all (fun i => P.any (fun x => x = i)) then none
  else some (permuteGo 0 P.length P c)

/-- Source `ipermute(dim)`: sorts `[0, dim.length)` by the comparator
`dim[a] - dim[b]` (modelled by a correct sort; the keys are distinct for any
permutation, which makes the sorted order unique) and permutes by the result. -/
def argsort (P : List Nat) : List Nat :=
  List.insertionSort (fun a b => P.getD a 0 ≤ P.getD b 0) (List.range P.length)

/-- Source `ipermute`. -/
def ipermute (P : List Nat) (c : Core) : Option Core :=
  permute (argsort P) c

end Core

/-- Trailing-singleton trim of `Check.checkSize`:
`while (size[size.length - 1] === 1 && size.length > 2) size.pop();`. -/
def trimTrail (l : List Int) : List Int :=
  let t := (l.reverse.takeWhile (fun x => x = 1)).length
  l.take (l.length - min t (l.length - 2))

/-- Source `Check.checkSize` for an array argument (the only form the claims
use): rejects an empty array or negative entries, trims trailing 1's down to
rank 2, and expands a single scalar `[n]` to the default `vector`
interpretation `[n, 1]`. -/
def checkSize (size : List Int) : Option (List Int) :=
  if size.length < 1 then none
  else if ¬ size.all (fun x => 0 ≤ x) then none
  else
    let size := trimTrail size
    if size.length = 1 then some (size ++ [1]) else some size

/-- Row-major stride list built by `_setFromSize`:
`step[i] = (size[i-1] || 1) * (step[i-1] || 1)` with `step[0] = 1`. -/
def mkStepsGo : List Int → Int → List Int
  | [], _ => []
  | sz :: rest, acc =>
    acc :: mkStepsGo rest ((if sz = 0 then 1 else sz) * (if acc = 0 then 1 else acc))

/-- Stride list for a checked size. -/
def mkStepList (size : List Int) : List Int :=
  mkStepsGo size 1

/-- A complete `MatrixView` object: the current descriptor state, the
immutable backup `initial` captured at construction, and the `views` stack
used by `save`/`restore`.  `initial.indices` is always the empty array, which
is what the constructor stores and what `restore` uses. -/
structure MView where
  core : Core
  initialFirst : List JsVal
  initialStep : List JsVal
  initialSize : List Int
  stack : List Core
deriving Repr

/-- Constructor path `_setFromSize` (`new MatrixView(sizeArray)`). -/
def mkView (sizeIn : List Int) : Option MView :=
  (checkSize sizeIn).map (fun size =>
    let first := List.replicate size.length (JsVal.num 0)
    let step := (mkStepList size).map JsVal.num
    { core := ⟨first, step, size, []⟩,
      initialFirst := first,
      initialStep := step,
      initialSize := size,
      stack := [] })

/-- Source `_setFromView` (`MatrixView.class.js` lines 945-963): rebuilds the
four arrays by reading the argument view's accessors.  For each dimension it
pushes `getFirst(i)` and `getSize(i)`; an Indexed dimension pushes its index
list onto `indices` and `undefined` onto `step`, a Strided one pushes
`getStep(i)`.  Note that `indices.push(...)` appends compactly: the list of
dimension `i` lands at position `#Indexed dimensions before i`, not at
position `i`. -/
def setFromViewCore (v : Core) : Core :=
  let n := v.getDimLength
  let acc := (List.range n).foldl
    (fun (acc : List JsVal × List JsVal × List Int × List (List JsVal)) i =>
      if v.isIndicesIndexed i then
        (acc.1 ++ [v.getFirst i], acc.2.1 ++ [JsVal.undef],
         acc.2.2.1 ++ [v.getSize i], acc.2.2.2 ++ [v.getIndices i])
      else
        (acc.1 ++ [v.getFirst i], acc.2.1 ++ [v.getStepVal i],
         acc.2.2.1 ++ [v.getSize i], acc.2.2.2))
    ([], [], [], [])
  ⟨acc.1, acc.2.1, acc.2.2.1, acc.2.2.2.map some⟩

/-- Source `save`: pushes `new MatrixView(this)` - a copy built by
`_setFromView` from the current state - onto the stack. -/
def MView.save (m : MView) : MView :=
  { m with stack := setFromViewCore m.core :: m.stack }

/-- Source `restore`: pops the stack and rebuilds the state from the popped
copy with `_setFromView`; with an empty stack it resets `first`, `step`,
`size` from `initial` and clears `indices`. -/
def MView.restore (m : MView) : MView :=
  match m.stack with
  | v :: rest => { m with core := setFromViewCore v, stack := rest }
  | [] => { m with core := ⟨m.initialFirst, m.initialStep, m.initialSize, []⟩ }

/-- Source `getInitialLength`: product of the `initial.size` entries. -/
def MView.getInitialLength (m : MView) : Int :=
  m.initialSize.foldl (· * ·) 1

/-- Lift of a fallible `Core` operation to the full view object. -/
def MView.onCore (m : MView) (f : Core → Option Core) : Option MView :=
  (f m.core).map (fun c => { m with core := c })

/-- Runtime state of a `SubIterator` (`Iterators.class.js` lines 5-28):
constructor arguments plus the mutable `start`, `stop`, `index`
(uninitialized = `undefined` before `begin`). -/
structure StridedSub where
  firstv : JsVal
  stepv : JsVal
  endv : JsVal
  offset : Int
  start : JsVal
  stop : JsVal
  index : JsVal
deriving Repr

/-- Runtime state of a `SubIteratorIndices` (`Iterators.class.js`
lines 116-152). -/
structure IdxSub where
  indices : List JsVal
  firstv : JsVal
  steps : List JsVal
  offset : Int
  stepIndex : Nat
  stop : JsVal
  index : JsVal
deriving Repr

/-- A per-dimension sub-iterator, in either addressing mode. -/
inductive SubIt where
  | strided (s : StridedSub) : SubIt
  | indexed (s : IdxSub) : SubIt
deriving Repr

/-- Static `SubIteratorIndices.getSteps(indices, step)`: differences scaled
by `step`, head forced to `0`, and a trailing `-indices[l-1]*step - 1`. -/
def subGetSteps (indices : List JsVal) (step : Int) : List JsVal :=
  let l := indices.length
  let steps := (List.range l).map (fun i =>
    if i = 0 then jget indices 0
    else jmul (jsub (jget indices i) (jget indices (i - 1))) (.num step))
  let last := jget indices (l - 1)
  jset steps 0 (.num 0) ++ [jsub (jmul (jsub (.num 0) last) (.num step)) (.num 1)]

/-- Source `getSubIterator(dim, offset = 0)` (`MatrixView.iterators.js`
lines 72-85).  For a Strided dimension it builds
`new SubIterator(first, step, end, offset)`.  For an Indexed dimension the
code executes `new SubIteratorIndices(this.getIndices(dim), offset)`: the
`offset` argument lands in the constructor's `step` parameter (whose default
is 1) and the constructor's own `offset` parameter takes its default `0`.
Every internal caller passes `offset = 0`, so the delta table of an Indexed
sub-iterator is built with step factor `0`. -/
def getSubIterator (c : Core) (dim : Nat) (offset : Int) : SubIt :=
  if c.isIndicesIndexed dim then
    let indices := c.getIndices dim
    SubIt.indexed { indices := indices, firstv := jget indices 0,
                    steps := subGetSteps indices offset, offset := 0,
                    stepIndex := 0, stop := JsVal.undef, index := JsVal.undef }
  else
    SubIt.strided { firstv := c.getFirst dim, stepv := c.getStepVal dim,
                    endv := c.getEndVal dim, offset := offset,
                    start := JsVal.undef, stop := JsVal.undef, index := JsVal.undef }

/-- Sub-iterator `begin(off)`; `arg = none` models a call with `undefined`
(or no argument), which triggers the default `off = offset`. -/
def subBegin : SubIt → Option JsVal → SubIt × JsVal
  | .strided s, arg =>
    let off := arg.getD (.num s.offset)
    let start := jadd off s.firstv
    ( .strided { s with start := start, stop := jadd off s.endv, index := start }, start)
  | .indexed s, arg =>
    let off := arg.getD (.num s.offset)
    let index := jadd off s.firstv
    ( .indexed { s with stepIndex := 0, stop := jsub off (.num 1), index := index }, index)

/-- Sub-iterator `iterator()`. -/
def subIterator : SubIt → SubIt × JsVal
  | .strided s =>
    let index := jadd s.index s.stepv
    (.strided { s with index := index }, index)
  | .indexed s =>
    let stepIndex := s.stepIndex + 1
    let index := jadd s.index (jget s.steps stepIndex)
    (.indexed { s with stepIndex := stepIndex, index := index }, index)

/-- Sub-iterator `isEnd()`: `index === stop`. -/
def subIsEnd : SubIt → Bool
  | .strided s => jeqb s.index s.stop
  | .indexed s => jeqb s.index s.stop

/-- Recursive carry `iterateDim(d)` shared by `Iterator` and
`IteratorIndices`: advance the sub-iterator of the innermost listed
dimension; on wraparound recurse into the next one and re-`begin` at the
returned base unless the recursion reports exhaustion (`-1`). -/
def iterateSubs : List SubIt → JsVal × List SubIt
  | [] => (.num (-1), [])
  | s :: rest =>
    let r := subIterator s
    if subIsEnd r.1 then
      let r2 := iterateSubs rest
      if jeqb r2.1 (.num (-1)) then (.num (-1), r.1 :: r2.2)
      else
        let b := subBegin r.1 (some r2.1)
        (b.2, b.1 :: r2.2)
    else (r.2, r.1 :: rest)

/-- Chain construction of `begin()`: sub-iterators are created for
dimensions `dimLength-1` down to `dim+1`, each begun at the value returned by
the previous (outer) one; the thread starts as `undefined`.
`IteratorIndices.begin` coerces the thread with `begin || 0` (`orZero`),
`Iterator.begin` passes it raw.  The returned list holds the sub-iterators of
dimensions `dim+1, dim+2, ...` in that order. -/
def buildChain (c : Core) (orZero : Bool) : List Nat → Option JsVal → List SubIt × Option JsVal
  | [], b => ([], b)
  | i :: rest, b =>
    let sub := getSubIterator c i 0
    let arg : Option JsVal :=
      if orZero then some (match b with | none => .num 0 | some v => jor v 0)
      else b
    let r := subBegin sub arg
    let rest' := buildChain c orZero rest (some r.2)
    (rest'.1 ++ [r.1], rest'.2)

/-- Dimensions `dimLength-1, dimLength-2, ..., dim+1` in build order. -/
def chainDims (n dim : Nat) : List Nat :=
  (List.range (n - (dim + 1))).map (fun k => n - 1 - k)

/-- Runtime state of a top-level `Iterator` (strided starting dimension). -/
structure TopStrided where
  firstv : JsVal
  stepv : JsVal
  endv : JsVal
  subs : List SubIt
  index : JsVal
  stop : JsVal
deriving Repr

/-- Runtime state of a top-level `IteratorIndices` (indexed starting
dimension). -/
structure TopIdx where
  steps : List JsVal
  firstv : JsVal
  subs : List SubIt
  subIndex : Nat
  stop : Nat
  index : JsVal
deriving Repr

/-- A top-level iterator as returned by `getIterator`. -/
inductive TopIt where
  | strided (t : TopStrided) : TopIt
  | indexed (t : TopIdx) : TopIt
deriving Repr

/-- Source `getIterator(dim).begin()`: dispatches on the mode of `dim`
(`MatrixView.iterators.js` lines 34-44) and performs the corresponding
`begin` (`Iterators.class.js` lines 76-93 and 214-229), returning the
iterator state and the first index. -/
def topBegin (c : Core) (dim : Nat) : TopIt × JsVal :=
  let n := c.getDimLength
  if c.isIndicesIndexed dim then
    let chain := buildChain c true (chainDims n dim) none
    let index := ((List.range (n - dim)).map (fun k => dim + k)).foldl
      (fun acc i => jadd acc (c.getFirst i)) (.num 0)
    let t : TopIdx := { steps := c.getSteps dim, firstv := c.getFirst dim,
                        subs := chain.1, subIndex := 0,
                        stop := (c.getIndices dim).length, index := index }
    (.indexed t, index)
  else
    let chain := buildChain c false (chainDims n dim) none
    let base := ((List.range (n - (dim + 1))).map (fun k => dim + 1 + k)).foldl
      (fun acc i => jadd acc (c.getFirst i)) (.num 0)
    let stop := jadd base (c.getEndVal dim)
    let index := jadd base (c.getFirst dim)
    let t : TopStrided := { firstv := c.getFirst dim, stepv := c.getStepVal dim,
                            endv := c.getEndVal dim, subs := chain.1,
                            index := index, stop := stop }
    (.strided t, index)

/-- Source `iterator()` of the two top-level iterator classes
(`Iterators.class.js` lines 55-63 and 184-196). -/
def topNext : TopIt → TopIt × JsVal
  | .strided t =>
    let index := jadd t.index t.stepv
    if jeqb index t.stop then
      let r := iterateSubs t.subs
      let index' := if jeqb r.1 (.num (-1)) then .num (-1) else jadd r.1 t.firstv
      let stop' := jadd r.1 t.endv
      (.strided { t with subs := r.2, index := index', stop := stop' }, index')
    else
      (.strided { t with index := index }, index)
  | .indexed t =>
    let subIndex := t.subIndex + 1
    if subIndex = t.stop then
      let r := iterateSubs t.subs
      if jeqb r.1 (.num (-1)) then
        (.indexed { t with subs := r.2, subIndex := subIndex, index := .num (-1) }, .num (-1))
      else
        let index := jadd (jadd r.1 t.firstv) (jget t.steps 0)
        (.indexed { t with subs := r.2, subIndex := 0, index := index }, index)
    else
      let index := jadd t.index (jget t.steps subIndex)
      (.indexed { t with subIndex := subIndex, index := index }, index)

/-- Offsets enumerated by a top-level iterator: collect indices until the
sentinel `-1` (the loop guard `i !== e()` of the extraction code), cut off by
the fuel. -/
def enumGo : Nat → TopIt → JsVal → List JsVal
  | 0, _, _ => []
  | Nat.succ fuel, t, i =>
    if jeqb i (.num (-1)) then []
    else
      let r := topNext t
      i :: enumGo fuel r.1 r.2

/-- Enumeration of a view's linear buffer offsets in dimension-0-fastest
order: `getIterator(0)`, `begin()`, then `iterator()` until the sentinel. -/
def enumOffsets (c : Core) (fuel : Nat) : List JsVal :=
  let b := topBegin c 0
  enumGo fuel b.1 b.2

/-- JS read `dataIn[i]` of a numeric buffer: a number index inside the bounds
reads the element, anything else (including `NaN` or out of range) reads
`undefined`. -/
def readData (dataIn : List Int) : JsVal → JsVal
  | .num k => if 0 ≤ k ∧ k.toNat < dataIn.length then .num (dataIn.getD k.toNat 0) else .undef
  | _ => (JsVal.undef)

/-- Copy loop of `extract` (`MatrixView.extraction.js` lines 236-241):
`for (i = b(), io = bo(), ei = e(); i !== ei; i = it(), io = ito())
dataOut[io] = dataIn[i];`.  The loop guard tests only the SOURCE iterator
against its sentinel.  The result is the trace of writes
`(destination offset, value)` in order, cut off by the fuel. -/
def extractGo (dataIn : List Int) :
    Nat → TopIt → JsVal → TopIt → JsVal → List (JsVal × JsVal)
  | 0, _, _, _, _ => []
  | Nat.succ fuel, tIn, i, tOut, io =>
    if jeqb i (.num (-1)) then []
    else
      let rIn := topNext tIn
      let rOut := topNext tOut
      (io, readData dataIn i) :: extractGo dataIn fuel rIn.1 rIn.2 rOut.1 rOut.2

/-- Source `extract(dataIn, viewOut, dataOut)` modelled as the trace of
writes it performs into `dataOut`: after the argument and length checks it
drives `this.getIterator(0)` and `viewOut.getIterator(0)` in lockstep.
`dataOutLen` is the length of the caller-supplied `dataOut`
(which must equal `viewOut.getInitialLength()`). -/
def MView.extract (m : MView) (dataIn : List Int) (mOut : MView) (dataOutLen : Nat)
    (fuel : Nat) : Option (List (JsVal × JsVal)) :=
  if (dataIn.length : Int) ≠ m.getInitialLength then none
  else if (dataOutLen : Int) ≠ mOut.getInitialLength then none
  else
    let bIn := topBegin m.core 0
    let bOut := topBegin mOut.core 0
    some (extractGo dataIn fuel bIn.1 bIn.2 bOut.1 bOut.2)

/-- Inner loop of `extractFrom` when dimension 0 is Indexed
(`MatrixView.extraction.js` lines 154-158): walk `y` by the dimension-0
delta table, collecting `dataIn[y]` until `y === ye`. -/
def extractFromInnerIdx (dataIn : List Int) (steps : List JsVal) :
    Nat → Nat → JsVal → JsVal → List JsVal
  | 0, _, _, _ => []
  | Nat.succ fuel, s, y, ye =>
    if jeqb y ye then []
    else readData dataIn y ::
      extractFromInnerIdx dataIn steps fuel (s + 1) (jadd y (jget steps (s + 1))) ye

/-- Inner loop of `extractFrom` when dimension 0 is Strided
(lines 161-165): walk `y` by the fixed step `dy`. -/
def extractFromInnerStr (dataIn : List Int) (dy : JsVal) :
    Nat → JsVal → JsVal → List JsVal
  | 0, _, _ => []
  | Nat.succ fuel, y, ye =>
    if jeqb y ye then []
    else readData dataIn y :: extractFromInnerStr dataIn dy fuel (jadd y dy) ye

/-- Outer loop of `extractFrom`: `getIterator(1)` drives the upper
dimensions; each base offset `i` runs the specialized dimension-0 inner
loop. -/
def extractFromGo (c : Core) (dataIn : List Int) (fuelInner : Nat) :
    Nat → TopIt → JsVal → List JsVal
  | 0, _, _ => []
  | Nat.succ fuel, t, i =>
    if jeqb i (.num (-1)) then []
    else
      let fy := c.getFirst 0
      let ly := c.getEndVal 0
      let block :=
        if c.isIndicesIndexed 0 then
          extractFromInnerIdx dataIn (c.getSteps 0) fuelInner 0 (jadd i fy) (jadd i ly)
        else
          extractFromInnerStr dataIn (c.getStepVal 0) fuelInner (jadd i fy) (jadd i ly)
      let r := topNext t
      block ++ extractFromGo c dataIn fuelInner fuel r.1 r.2

/-- Source `extractFrom(dataIn)` (`MatrixView.extraction.js` lines 121-169)
with a freshly allocated output (so the output length check holds by
construction): checks `dataIn.length === getInitialLength()`, then gathers
the addressed elements, dimension 0 fastest. -/
def MView.extractFrom (m : MView) (dataIn : List Int) (fuelOuter fuelInner : Nat) :
    Option (List JsVal) :=
  if (dataIn.length : Int) ≠ m.getInitialLength then none
  else
    let b := topBegin m.core 1
    some (extractFromGo m.core dataIn fuelInner fuelOuter b.1 b.2)

/-- Gather semantics the specification states for `selectByIndices` on an
Indexed dimension - "absolute offset `= indices[list[i]]` (gather through
existing list)", where `indices` is the dimension's own index list.  This is
a spec-side definition, written from the spec's words for comparison with
the code's behaviour. -/
def selectIndicesSpec (ind : List JsVal) (sel : List Int) : List JsVal :=
  sel.map (fun x => jget ind x.toNat)

/-- C8: starting from `View([5,5])` over the flat buffer `0..24`,
`selectDimByIndices(0, [1,3,4])` then `selectDimByIndices(1, [2])` followed by
`extractFrom` returns exactly `[11, 13, 14]` in that order. -/
theorem claim8_select_select_extractFrom_scenario :
    ((((mkView [5, 5]).bind
        (fun m => m.onCore (fun c => c.selectDimByIndices 0 [1, 3, 4]))).bind
        (fun m => m.onCore (fun c => c.selectDimByIndices 1 [2]))).bind
        (fun m => m.extractFrom ((List.range 25).map Int.ofNat) 5 5)) =
      some [.num 11, .num 13, .num 14] := by
  rfl

/-- C2: evaluation of `selectDimByIndices` at a failing input.  On the fresh
`View([3,2])`, `selectDimByIndices(0, [2,1])` stores the absolute offsets
`[2, 1]` (Strided branch, as claimed).  A second `selectDimByIndices(0, [1,0])`
on the now-Indexed dimension should, per the claim, store the gather
`indices₀[[1,0]] = [1, 2]`; the code instead evaluates `indices[ind[i]]`
against the view-level `indices` array and stores
`[-1, [2,1]]` (an `undefined` read patched to `-1`, followed by the
dimension-0 index list itself as a nested array). -/
theorem claim2_selectByIndices_indexed_gather_bug :
    (((mkView [3, 2]).map MView.core).bind
        (fun c => c.selectDimByIndices 0 [2, 1])) =
      some ⟨[.num 2, .num 0], [.num 1, .num 3], [2, 2], [some [.num 2, .num 1]]⟩ ∧
    Core.selectDimByIndices
        ⟨[.num 2, .num 0], [.num 1, .num 3], [2, 2], [some [.num 2, .num 1]]⟩ 0 [1, 0] =
      some ⟨[.num (-1), .num 0], [.num 1, .num 3], [2, 2],
            [some [.num (-1), .arr [.num 2, .num 1]]]⟩ ∧
    selectIndicesSpec [.num 2, .num 1] [1, 0] = [.num 1, .num 2] ∧
    [JsVal.num (-1), .arr [.num 2, .num 1]] ≠ [JsVal.num 1, .num 2] := by
  refine ⟨rfl, rfl, rfl, ?_⟩
  simp

/-- C5: evaluation of the `circshift` round trip at a failing input.  On the
fresh `View([2,2])` (enumeration `[0,1,2,3]`), `circshift(1, 0)` computes the
rotated list `[1, 0]` and leaves dimension 0 Indexed with offsets `[1, 0]`,
as claimed.  The subsequent `circshift(-1, 0)` hits the Indexed branch of
`selectDimByIndices`, which gathers through the view-level `indices` array:
the resulting state stores `first[0] = -1` and the list `[-1, [1,0]]`, and its
enumeration is empty - the original enumeration is not restored. -/
theorem claim5_circshift_roundtrip_bug :
    ((mkView [2, 2]).map MView.core) =
      some ⟨[.num 0, .num 0], [.num 1, .num 2], [2, 2], []⟩ ∧
    enumOffsets ⟨[.num 0, .num 0], [.num 1, .num 2], [2, 2], []⟩ 10 =
      [.num 0, .num 1, .num 2, .num 3] ∧
    Core.circshiftSel ⟨[.num 0, .num 0], [.num 1, .num 2], [2, 2], []⟩ 1 0 = [1, 0] ∧
    Core.circshift ⟨[.num 0, .num 0], [.num 1, .num 2], [2, 2], []⟩ 1 0 =
      some ⟨[.num 1, .num 0], [.num 1, .num 2], [2, 2], [some [.num 1, .num 0]]⟩ ∧
    Core.isIndicesIndexed
      ⟨[.num 1, .num 0], [.num 1, .num 2], [2, 2], [some [.num 1, .num 0]]⟩ 0 = true ∧
    Core.circshift
        ⟨[.num 1, .num 0], [.num 1, .num 2], [2, 2], [some [.num 1, .num 0]]⟩ (-1) 0 =
      some ⟨[.num (-1), .num 0], [.num 1, .num 2], [2, 2],
            [some [.num (-1), .arr [.num 1, .num 0]]]⟩ ∧
    enumOffsets ⟨[.num (-1), .num 0], [.num 1, .num 2], [2, 2],
                 [some [.num (-1), .arr [.num 1, .num 0]]]⟩ 10 = [] ∧
    ([] : List JsVal) ≠ [.num 0, .num 1, .num 2, .num 3] := by
  refine ⟨rfl, rfl, rfl, rfl, rfl, rfl, rfl, ?_⟩
  simp

/-- C3: evaluation of `save`/`mutate`/`restore` at a failing input, plus the
empty-stack behaviour.  On `View([2,2])` with `selectDimByIndices(1, [1,0])`
(dimension 1 Indexed, dimension 0 Strided), a `save`, a mutation and a
`restore` produce a view whose enumeration is `[2,0,3,1]`, different from the
pre-save enumeration (which, because `getSubIterator` builds the Indexed
sub-iterator of dimension 1 with step factor 0, is itself the non-terminating
`[2,3,2,3,1,2,NaN,...]`): `_setFromView` pushed the index list of dimension 1
compactly, so the restored view is Indexed on dimension 0 instead.
With an empty stack, `restore` resets to the construction-time state and is
idempotent, as claimed. -/
theorem claim3_save_restore_bug :
    (do
      let m ← mkView [2, 2]
      let m ← m.onCore (fun c => c.selectDimByIndices 1 [1, 0])
      let pre := enumOffsets m.core 10
      let m ← (m.save).onCore (fun c => c.selectDimByColon 0 [0])
      let m := m.restore
      pure (pre, enumOffsets m.core 10)) =
      some ([.num 2, .num 3, .num 2, .num 3, .num 1, .num 2, .nan, .nan, .nan, .nan],
            [.num 2, .num 0, .num 3, .num 1]) ∧
    ([JsVal.num 2, .num 3, .num 2, .num 3, .num 1, .num 2, .nan, .nan, .nan, .nan] ≠
      [JsVal.num 2, .num 0, .num 3, .num 1]) ∧
    (∀ m : MView, m.stack = [] →
      (MView.restore m).core = ⟨m.initialFirst, m.initialStep, m.initialSize, []⟩ ∧
      MView.restore (MView.restore m) = MView.restore m) := by
  refine ⟨rfl, by simp, ?_⟩
  intro m h
  have hr : MView.restore m =
      { m with core := ⟨m.initialFirst, m.initialStep, m.initialSize, []⟩ } := by
    unfold MView.restore
    rw [h]
  constructor
  · rw [hr]
  · have h2 : (MView.restore m).stack = [] := by rw [hr]; exact h
    rw [hr]
    unfold MView.restore
    rw [show ({ m with core := (⟨m.initialFirst, m.initialStep, m.initialSize, []⟩ : Core) } :
      MView).stack = m.stack from rfl, h]

/-- Witness for the hypothesis-bearing conjunct of
`claim3_save_restore_bug`, at the concrete empty view. -/
theorem claim3_save_restore_bug_witness :
    ((⟨⟨[], [], [], []⟩, [], [], [], []⟩ : MView).stack = []) ∧
    (MView.restore ⟨⟨[], [], [], []⟩, [], [], [], []⟩).core = ⟨[], [], [], []⟩ := by
  refine ⟨rfl, ?_⟩
  exact (claim3_save_restore_bug.2.2 ⟨⟨[], [], [], []⟩, [], [], [], []⟩ rfl).1

/-- C4: evaluation of `extract` at the failing input taken from the
repository's own test (`test.js`, "MatrixView extract").  The source view
addresses `[11,13,14]`, the destination view addresses `[7,17,22]`; the test
expects the write trace `[(7,11),(17,13),(22,14)]` followed by termination.
The code's trace (first 6 iterations) instead writes `11, 13, 14` all to
offset 7, then continues past both enumerations with garbage offsets,
because `getSubIterator` builds the destination's (and source's) Indexed
sub-iterator of dimension 1 with step factor 0 and because the loop guard
checks only the source iterator's sentinel. -/
theorem claim4_extract_lockstep_bug :
    (do
      let mIn ← mkView [5, 5]
      let mIn ← mIn.onCore (fun c => c.selectDimByIndices 0 [1, 3, 4])
      let mIn ← mIn.onCore (fun c => c.selectDimByIndices 1 [2])
      let mOut ← mkView [5, 5]
      let mOut ← mOut.onCore (fun c => c.selectDimByIndices 1 [1, 3, 4])
      let mOut ← mOut.onCore (fun c => c.selectDimByIndices 0 [2])
      mIn.extract ((List.range 25).map Int.ofNat) mOut 25 6) =
      some [(.num 7, .num 11), (.num 7, .num 13), (.num 7, .num 14),
            (.num 6, .num 10), (.nan, .num 12), (.nan, .num 13)] ∧
    ([(JsVal.num 7, JsVal.num 11), (.num 7, .num 13), (.num 7, .num 14)] ≠
      [(JsVal.num 7, JsVal.num 11), (.num 17, .num 13), (.num 22, .num 14)]) := by
  exact ⟨rfl, by simp⟩

/-- C9: on an Indexed dimension, `getStep` raises the dimension-mode-conflict
error while `getEnd` raises no error and returns the sentinel `-1`. -/
theorem claim9_getStep_getEnd_indexed (c : Core) (d : Nat)
    (h : c.isIndicesIndexed d = true) :
    c.getStep d = .error "MatrixView.getStep: dimension is indexed by indices." ∧
    c.getEnd d = .ok (.num (-1)) := by
  constructor
  · unfold Core.getStep
    rw [h]
    simp
  · unfold Core.getEnd Core.getEndVal
    rw [h]
    simp

/-- Witness for `claim9_getStep_getEnd_indexed` at a concrete Indexed
state. -/
theorem claim9_getStep_getEnd_indexed_witness :
    Core.isIndicesIndexed ⟨[.num 0], [.num 1], [2], [some [.num 0, .num 1]]⟩ 0 = true ∧
    Core.getStep ⟨[.num 0], [.num 1], [2], [some [.num 0, .num 1]]⟩ 0 =
      .error "MatrixView.getStep: dimension is indexed by indices." ∧
    Core.getEnd ⟨[.num 0], [.num 1], [2], [some [.num 0, .num 1]]⟩ 0 = .ok (.num (-1)) := by
  refine ⟨rfl, ?_⟩
  exact claim9_getStep_getEnd_indexed _ 0 rfl

/-- The stripping loop returns the sizes with the leading run of `1`s
removed (the `first`/`step` outputs are the corresponding tails). -/
theorem stripLead_size (f s : List JsVal) (sz : List Int) :
    (Core.stripLead f s sz).2.2 = sz.dropWhile (fun x => x == 1) := by
  induction sz generalizing f s with
  | nil => rfl
  | cons h t ih =>
    by_cases hc : h = 1
    · subst hc
      simpa [Core.stripLead] using ih f.tail s.tail
    · simp [Core.stripLead, hc, List.dropWhile_cons]

/-- A list containing an element other than `1` does not become empty when
its leading `1`s are dropped. -/
theorem dropWhile_one_ne_nil (l : List Int) (hx : ∃ x ∈ l, x ≠ 1) :
    l.dropWhile (fun x => x == 1) ≠ [] := by
  induction l with
  | nil => rcases hx with ⟨x, hx, _⟩; cases hx
  | cons h t ih =>
    rcases hx with ⟨x, hx, hne⟩
    by_cases hc : h = 1
    · subst hc
      rcases List.mem_cons.mp hx with rfl | hxt
      · exact absurd rfl hne
      · simpa [List.dropWhile_cons] using ih ⟨x, hxt, hne⟩
    · simp [List.dropWhile_cons, hc]

/-- C6 counterexample: on the all-singleton `View([1,1])`, a no-argument
`shiftDimension()` strips every dimension and leaves the view with rank 0,
not rank 2. -/
theorem claim6_all_singleton_rank_zero :
    (mkView [1, 1]).map (fun m => (Core.shiftDimension m.core).getDimLength) =
      some 0 := by
  rfl

/-- C6 amended: the no-argument `shiftDimension()` strips the leading
size-1 dimensions and re-pads one trailing singleton exactly when the
remaining rank is 1; consequently the resulting rank is at least 2 whenever
the view has at least one non-singleton dimension, while an all-singleton
view is stripped to rank 0. -/
theorem claim6_shiftDimension_strip_amended (c : Core) :
    (Core.shiftDimension c).size =
      (let r := c.size.dropWhile (fun x => x == 1)
       if r.length = 1 then r ++ [1] else r) ∧
    ((∃ x ∈ c.size, x ≠ 1) → 2 ≤ (Core.shiftDimension c).getDimLength) := by
  have hs : (Core.stripLead c.first c.step c.size).2.2 =
      c.size.dropWhile (fun x => x == 1) := stripLead_size _ _ _
  constructor
  · simp only [Core.shiftDimension, hs]
    by_cases h1 : (c.size.dropWhile (fun x => x == 1)).length = 1
    · simp [h1]
    · simp [h1]
  · intro hx
    have hne := dropWhile_one_ne_nil c.size hx
    simp only [Core.shiftDimension, Core.getDimLength, hs]
    by_cases h1 : (c.size.dropWhile (fun x => x == 1)).length = 1
    · simp [h1]
    · simp only [h1, if_false]
      have h0 : (c.size.dropWhile (fun x => x == 1)).length ≠ 0 := by
        simpa [List.length_eq_zero] using hne
      omega

/-- Witness for `claim6_shiftDimension_strip_amended` at a view with a
non-singleton dimension. -/
theorem claim6_shiftDimension_strip_amended_witness :
    (∃ x ∈ ([1, 2, 3] : List Int), x ≠ 1) ∧
    2 ≤ (Core.shiftDimension ⟨[.num 0, .num 0, .num 0], [.num 1, .num 1, .num 2],
      [1, 2, 3], []⟩).getDimLength := by
  refine ⟨⟨2, by simp, by simp⟩, ?_⟩
  exact (claim6_shiftDimension_strip_amended _).2 ⟨2, by simp, by simp⟩

/-- Reading back the cell just written by `jset`. -/
theorem jget_jset_self (l : List JsVal) (i : Nat) (v : JsVal) :
    jget (jset l i v) i = v := by
  unfold jget jset
  by_cases h : i < l.length
  · rw [if_pos h, List.getD_eq_getElem?_getD, List.getElem?_set_eq_of_lt v h]
    rfl
  · have hlen : i < (l ++ List.replicate (i + 1 - l.length) JsVal.undef).length := by
      simp only [List.length_append, List.length_replicate]
      omega
    rw [if_neg h, List.getD_eq_getElem?_getD, List.getElem?_set_eq_of_lt v hlen]
    rfl

/-- Reading back the cell just written by `isetSize`. -/
theorem isetSize_getD_self (l : List Int) (i : Nat) (v : Int) :
    (isetSize l i v).getD i 1 = v := by
  unfold isetSize
  by_cases h : i < l.length
  · rw [if_pos h, List.getD_eq_getElem?_getD, List.getElem?_set_eq_of_lt v h]
    rfl
  · have hlen : i < (l ++ List.replicate (i + 1 - l.length) 1).length := by
      simp only [List.length_append, List.length_replicate]
      omega
    rw [if_neg h, List.getD_eq_getElem?_getD, List.getElem?_set_eq_of_lt v hlen]
    rfl

/-- The floor of `|x / s|` over the rationals is the natural-number division
of the absolute values, as integers. -/
theorem floor_abs_div_natAbs (x s : Int) :
    Int.floor |((x : ℚ) / (s : ℚ))| = ((x.natAbs / s.natAbs : Nat) : Int) := by
  have h1 : |((x : ℚ) / (s : ℚ))| = ((x.natAbs : ℚ) / (s.natAbs : ℚ)) := by
    rw [abs_div, Int.cast_natAbs, Int.cast_natAbs]
    simp [Int.cast_abs]
  rw [h1, Rat.floor_natCast_div_natCast]
  exact (Int.ofNat_ediv _ _).symm

/-- C7: on a Strided dimension `d`, a range selection whose spec resolves
(via `checkColon`, negative values already folded against `size(d)`) to the
inclusive triple `(a, s, b)` with `s ≠ 0` updates the descriptor to exactly
`first' = first + a*step_old`, `step' = step_old*s`, and
`size' = floor(|(b - a)/s|) + 1` (equivalently `|b-a| / |s| + 1` in integer
arithmetic). -/
theorem claim7_selectByColon_strided (c : Core) (d : Nat) (sel : List Int)
    (f st a s b : Int)
    (hidx : c.isIndicesIndexed d = false)
    (hf : c.getFirst d = .num f)
    (hst : c.getStepVal d = .num st)
    (hcol : checkColon sel (c.getSize d) = some (a, s, b))
    (hs : s ≠ 0) :
    (c.selectDimByColon d sel).map (fun x => x.getFirst d) =
      some (.num (f + a * st)) ∧
    (c.selectDimByColon d sel).map (fun x => x.getStepVal d) =
      some (.num (st * s)) ∧
    (c.selectDimByColon d sel).map (fun x => x.getSize d) =
      some (Int.floor |(((b - a : Int) : ℚ) / ((s : Int) : ℚ))| + 1) ∧
    (c.selectDimByColon d sel).map (fun x => x.getSize d) =
      some ((((b - a).natAbs / s.natAbs : Nat) : Int) + 1) := by
  have hbody : c.selectDimByColon d sel = some
      { c with
        first := jset c.first d (jadd (c.getFirst d) (jmul (.num a) (c.getStepVal d))),
        step := jset c.step d (jmul (c.getStepVal d) (.num s)),
        size := isetSize c.size d
          (Int.floor |(((b - a : Int) : ℚ) / ((s : Int) : ℚ))| + 1) } := by
    unfold Core.selectDimByColon
    rw [hcol]
    simp [hidx]
  rw [hbody]
  refine ⟨?_, ?_, ?_, ?_⟩
  · simp only [Option.map_some', Option.some.injEq]
    set V := jadd (c.getFirst d) (jmul (.num a) (c.getStepVal d)) with hV
    unfold Core.getFirst
    rw [jget_jset_self, hV, hf, hst]
    rfl
  · simp only [Option.map_some', Option.some.injEq]
    set V := jmul (c.getStepVal d) (.num s) with hV
    unfold Core.getStepVal
    rw [jget_jset_self, hV, hst]
    rfl
  · simp only [Option.map_some', Option.some.injEq]
    unfold Core.getSize
    exact isetSize_getD_self _ _ _
  · simp only [Option.map_some', Option.some.injEq]
    unfold Core.getSize
    rw [isetSize_getD_self, floor_abs_div_natAbs]

/-- Witness for `claim7_selectByColon_strided`: the documented example
`View([6,4]).selectDimByColon(0, [1,2,5])`, which yields
`first' = 1`, `step' = 2`, `size' = 3`. -/
theorem claim7_selectByColon_strided_witness :
    checkColon [1, 2, 5] ((⟨[.num 0, .num 0], [.num 1, .num 6], [6, 4], []⟩ : Core).getSize 0) =
      some (1, 2, 5) ∧
    ((⟨[.num 0, .num 0], [.num 1, .num 6], [6, 4], []⟩ : Core).selectDimByColon 0
        [1, 2, 5]).map (fun x => x.getFirst 0) = some (.num 1) ∧
    ((⟨[.num 0, .num 0], [.num 1, .num 6], [6, 4], []⟩ : Core).selectDimByColon 0
        [1, 2, 5]).map (fun x => x.getSize 0) = some 3 := by
  refine ⟨rfl, ?_, ?_⟩
  · have h := claim7_selectByColon_strided
      ⟨[.num 0, .num 0], [.num 1, .num 6], [6, 4], []⟩ 0 [1, 2, 5]
      0 1 1 2 5 rfl rfl rfl rfl (by decide)
    simpa using h.1
  · have h := claim7_selectByColon_strided
      ⟨[.num 0, .num 0], [.num 1, .num 6], [6, 4], []⟩ 0 [1, 2, 5]
      0 1 1 2 5 rfl rfl rfl rfl (by decide)
    rw [h.2.2.2]
    rfl

/-- The observable descriptor of one dimension: the cells of the four
parallel arrays. -/
def dimAt (c : Core) (p : Nat) : JsVal × JsVal × Int × Option (List JsVal) :=
  (c.first.getD p JsVal.undef, c.step.getD p JsVal.undef, c.size.getD p 1,
   c.indices.getD p none)

/-- Dense well-formedness: the four arrays all have length `n` (the canonical
dense representation of the view's sparse JS arrays). -/
def wfLen (c : Core) (n : Nat) : Prop :=
  c.first.length = n ∧ c.step.length = n ∧ c.size.length = n ∧ c.indices.length = n

/-- Reordered state `permute` produces: dimension `i` of the result is
dimension `P[i]` of the input. -/
def gatherCore (P : List Nat) (c : Core) : Core :=
  ⟨P.map (fun p => c.first.getD p JsVal.undef),
   P.map (fun p => c.step.getD p JsVal.undef),
   P.map (fun p => c.size.getD p 1),
   P.map (fun p => c.indices.getD p none)⟩

/-- `getD` after `set` at the written index, in range. -/
theorem getD_set_self {α : Type} (l : List α) (i : Nat) (v d : α) (h : i < l.length) :
    (l.set i v).getD i d = v := by
  simp [List.getD_eq_getElem?_getD, List.getElem?_set_eq_of_lt v h]

/-- `getD` after `set` at another index. -/
theorem getD_set_ne {α : Type} (l : List α) (i j : Nat) (v d : α) (h : j ≠ i) :
    (l.set i v).getD j d = l.getD j d := by
  simp [List.getD_eq_getElem?_getD, List.getElem?_set_ne (Ne.symm h)]

/-- The position exchange realized by one `swap`. -/
def swapPos (a b p : Nat) : Nat :=
  if p = a then b else if p = b then a else p

/-- `jswap` within bounds: length and cells. -/
theorem jswap_spec (l : List JsVal) (a b : Nat) (ha : a < l.length) (hb : b < l.length) :
    (jswap l a b).length = l.length ∧
    ∀ p, (jswap l a b).getD p JsVal.undef = l.getD (swapPos a b p) JsVal.undef := by
  have h1 : jset l a (jget l b) = l.set a (jget l b) := by
    unfold jset
    rw [if_pos ha]
  have hlen1 : (l.set a (jget l b)).length = l.length := by simp
  have h2 : jswap l a b = (l.set a (jget l b)).set b (jget l a) := by
    unfold jswap
    rw [h1]
    unfold jset
    rw [if_pos (by rw [hlen1]; exact hb)]
  constructor
  · rw [h2]; simp
  · intro p
    rw [h2]
    by_cases hpb : p = b
    · rw [hpb, getD_set_self _ _ _ _ (by rw [hlen1]; exact hb)]
      by_cases hba : b = a
      · rw [hba]
        simp [swapPos, jget]
      · simp [swapPos, hba, jget]
    · rw [getD_set_ne _ _ _ _ _ hpb]
      by_cases hpa : p = a
      · rw [hpa, getD_set_self _ _ _ _ ha]
        simp [swapPos, jget]
      · rw [getD_set_ne _ _ _ _ _ hpa]
        simp [swapPos, hpa, hpb]

/-- `iswap` within bounds: length and cells. -/
theorem iswap_spec (l : List Int) (a b : Nat) (ha : a < l.length) (hb : b < l.length) :
    (iswap l a b).length = l.length ∧
    ∀ p, (iswap l a b).getD p 1 = l.getD (swapPos a b p) 1 := by
  have h1 : isetSize l a (l.getD a 1) = l.set a (l.getD a 1) := by
    unfold isetSize
    rw [if_pos ha]
  have h1' : isetSize l a (l.getD b 1) = l.set a (l.getD b 1) := by
    unfold isetSize
    rw [if_pos ha]
  have hlen1 : (l.set a (l.getD b 1)).length = l.length := by simp
  have h2 : iswap l a b = (l.set a (l.getD b 1)).set b (l.getD a 1) := by
    unfold iswap
    rw [h1']
    unfold isetSize
    rw [if_pos (by rw [hlen1]; exact hb)]
  constructor
  · rw [h2]; simp
  · intro p
    rw [h2]
    by_cases hpb : p = b
    · rw [hpb, getD_set_self _ _ _ _ (by rw [hlen1]; exact hb)]
      by_cases hba : b = a
      · rw [hba]
        simp [swapPos]
      · simp [swapPos, hba]
    · rw [getD_set_ne _ _ _ _ _ hpb]
      by_cases hpa : p = a
      · rw [hpa, getD_set_self _ _ _ _ ha]
        simp [swapPos]
      · rw [getD_set_ne _ _ _ _ _ hpa]
        simp [swapPos, hpa, hpb]

/-- `oswap` within bounds: length and cells. -/
theorem oswap_spec (l : List (Option (List JsVal))) (a b : Nat)
    (ha : a < l.length) (hb : b < l.length) :
    (oswap l a b).length = l.length ∧
    ∀ p, (oswap l a b).getD p none = l.getD (swapPos a b p) none := by
  have h1' : osetIdx l a (l.getD b none) = l.set a (l.getD b none) := by
    unfold osetIdx
    rw [if_pos ha]
  have hlen1 : (l.set a (l.getD b none)).length = l.length := by simp
  have h2 : oswap l a b = (l.set a (l.getD b none)).set b (l.getD a none) := by
    unfold oswap
    rw [h1']
    unfold osetIdx
    rw [if_pos (by rw [hlen1]; exact hb)]
  constructor
  · rw [h2]; simp
  · intro p
    rw [h2]
    by_cases hpb : p = b
    · rw [hpb, getD_set_self _ _ _ _ (by rw [hlen1]; exact hb)]
      by_cases hba : b = a
      · rw [hba]
        simp [swapPos]
      · simp [swapPos, hba]
    · rw [getD_set_ne _ _ _ _ _ hpb]
      by_cases hpa : p = a
      · rw [hpa, getD_set_self _ _ _ _ ha]
        simp [swapPos]
      · rw [getD_set_ne _ _ _ _ _ hpa]
        simp [swapPos, hpa, hpb]

/-- `swapDimensions` for in-rank positions: no singleton padding happens, the
lengths are preserved and each dimension reads the swapped source
dimension. -/
theorem swapDimensions_spec (c : Core) (n a b : Nat) (hwf : wfLen c n)
    (ha : a < n) (hb : b < n) :
    wfLen (Core.swapDimensions c a b) n ∧
    ∀ p, dimAt (Core.swapDimensions c a b) p = dimAt c (swapPos a b p) := by
  obtain ⟨h1, h2, h3, h4⟩ := hwf
  have hdim : c.getDimLength = n := h3
  have hno : ¬ (0 < (max (a : Int) (b : Int)) + 1 - (c.getDimLength : Int)) := by
    rw [hdim]
    rcases le_total (a : Int) (b : Int) with hab | hab
    · rw [max_eq_right hab]
      omega
    · rw [max_eq_left hab]
      omega
  have hsw : Core.swapDimensions c a b =
      ⟨jswap c.first a b, jswap c.step a b, iswap c.size a b, oswap c.indices a b⟩ := by
    simp only [Core.swapDimensions]
    rw [if_neg hno]
  have hf := jswap_spec c.first a b (by rw [h1]; exact ha) (by rw [h1]; exact hb)
  have hs := jswap_spec c.step a b (by rw [h2]; exact ha) (by rw [h2]; exact hb)
  have hz := iswap_spec c.size a b (by rw [h3]; exact ha) (by rw [h3]; exact hb)
  have hi := oswap_spec c.indices a b (by rw [h4]; exact ha) (by rw [h4]; exact hb)
  constructor
  · exact ⟨by rw [hsw]; exact hf.1.trans h1, by rw [hsw]; exact hs.1.trans h2,
      by rw [hsw]; exact hz.1.trans h3, by rw [hsw]; exact hi.1.trans h4⟩
  · intro p
    rw [hsw]
    unfold dimAt
    exact congrArg₂ Prod.mk (hf.2 p) (congrArg₂ Prod.mk (hs.2 p)
      (congrArg₂ Prod.mk (hz.2 p) (hi.2 p)))

/-- Correctness of the inner cycle loop of `permute`.  The loop walks the
remaining cycle positions `todo` (already-processed members of this cycle are
`done`; members of previously processed cycles satisfy `V`); walking them
sets each `dim` cell to its own index and rotates the view's dimensions so
that every processed position `p` reads the original dimension `f p`, where
`f` is the permutation being applied and `i` the cycle's first element. -/
theorem permuteCycleGo_spec (n : Nat) (f : Nat → Nat) (V : Nat → Prop) (c₀ : Core)
    (i : Nat) :
    ∀ (todo : List Nat), todo ≠ [] →
    ∀ (done : List Nat) (fuel : Nat) (D : List Nat) (c : Core),
    List.Chain' (fun a b => f a = b) (done ++ todo) →
    (∃ tl, done ++ todo = i :: tl) →
    (∀ z, todo.getLast? = some z → f z = i) →
    (done ++ todo).Nodup →
    (∀ p, p ∈ done ++ todo → p < n ∧ ¬ V p) →
    D.length = n →
    (∀ p, p < n → (V p ∨ p ∈ done) → D.getD p 0 = p) →
    (∀ p, p < n → ¬ V p → p ∉ done → D.getD p 0 = f p) →
    wfLen c n →
    (∀ p, p < n → (V p ∨ p ∈ done) → dimAt c p = dimAt c₀ (f p)) →
    (dimAt c (todo.headD 0) = dimAt c₀ i) →
    (∀ p, p < n → ¬ V p → p ∉ done → p ≠ todo.headD 0 → dimAt c p = dimAt c₀ p) →
    todo.length ≤ fuel →
    ((Core.permuteCycleGo fuel D i (todo.headD 0) c).1.length = n) ∧
    (∀ p, p < n → (V p ∨ p ∈ done ++ todo) →
      (Core.permuteCycleGo fuel D i (todo.headD 0) c).1.getD p 0 = p) ∧
    (∀ p, p < n → ¬ V p → p ∉ done ++ todo →
      (Core.permuteCycleGo fuel D i (todo.headD 0) c).1.getD p 0 = f p) ∧
    wfLen (Core.permuteCycleGo fuel D i (todo.headD 0) c).2 n ∧
    (∀ p, p < n → (V p ∨ p ∈ done ++ todo) →
      dimAt (Core.permuteCycleGo fuel D i (todo.headD 0) c).2 p = dimAt c₀ (f p)) ∧
    (∀ p, p < n → ¬ V p → p ∉ done ++ todo →
      dimAt (Core.permuteCycleGo fuel D i (todo.headD 0) c).2 p = dimAt c₀ p) := by
  intro todo
  induction todo with
  | nil => intro hne; exact absurd rfl hne
  | cons j rest ih =>
    intro _ done fuel D c hchain hstruct hlast hnd hsub hDlen hD1 hD2 hcwf hc1 hc2 hc3 hfuel
    match fuel, hfuel with
    | Nat.succ fuel, hfuel =>
    have hjmem : j ∈ done ++ j :: rest := by simp
    have hjn : j < n ∧ ¬ V j := hsub j hjmem
    have hnd' := List.nodup_append.mp hnd
    have hjdone : j ∉ done := fun hmem => (hnd'.2.2 hmem) (by simp)
    have hk : D.getD j 0 = f j := hD2 j hjn.1 hjn.2 hjdone
    have hhead : (j :: rest).headD 0 = j := rfl
    rw [hhead] at hc2 hc3 ⊢
    cases rest with
    | nil =>
      have hfj : f j = i := hlast j rfl
      have hki : D.getD j 0 = i := by rw [hk, hfj]
      have hres : Core.permuteCycleGo (fuel + 1) D i j c = (D.set j j, c) := by
        unfold Core.permuteCycleGo
        rw [hki]
        simp
      rw [hres]
      have hmemiff : ∀ p, p ∈ done ++ [j] ↔ p ∈ done ∨ p = j := by
        intro p; simp
      refine ⟨by simp [hDlen], ?_, ?_, hcwf, ?_, ?_⟩
      · intro p hp hcase
        by_cases hpj : p = j
        · rw [hpj]
          exact getD_set_self _ _ _ _ (by rw [hDlen]; exact hjn.1)
        · rw [getD_set_ne _ _ _ _ _ hpj]
          rcases hcase with hv | hmem
          · exact hD1 p hp (Or.inl hv)
          · rcases (hmemiff p).mp hmem with h | h
            · exact hD1 p hp (Or.inr h)
            · exact absurd h hpj
      · intro p hp hv hmem
        have hpj : p ≠ j := fun h => hmem (by rw [h]; simp)
        rw [getD_set_ne _ _ _ _ _ hpj]
        exact hD2 p hp hv (fun h => hmem (by simp [h]))
      · intro p hp hcase
        by_cases hpj : p = j
        · rw [hpj, hfj]
          exact hc2
        · rcases hcase with hv | hmem
          · exact hc1 p hp (Or.inl hv)
          · rcases (hmemiff p).mp hmem with h | h
            · exact hc1 p hp (Or.inr h)
            · exact absurd h hpj
      · intro p hp hv hmem
        have hpj : p ≠ j := fun h => hmem (by rw [h]; simp)
        exact hc3 p hp hv (fun h => hmem (by simp [h])) hpj
    | cons j2 rest' =>
      have hfj : f j = j2 := (List.chain'_cons.mp hchain.right_of_append).1
      have hj2mem : j2 ∈ done ++ j :: j2 :: rest' := by simp
      have hj2n : j2 < n ∧ ¬ V j2 := hsub j2 hj2mem
      have hj2done : j2 ∉ done := fun hmem => (hnd'.2.2 hmem) (by simp)
      have hjj2 : j ≠ j2 := by
        intro h
        have := hnd'.2.1
        rw [← h] at this
        exact (List.nodup_cons.mp this).1 (by simp)
      have hj2i : j2 ≠ i := by
        obtain ⟨tl, htl⟩ := hstruct
        have hj2tl : j2 ∈ tl := by
          cases done with
          | nil =>
            have h1 : j = i ∧ j2 :: rest' = tl := by
              have := htl
              simp only [List.nil_append] at this
              exact ⟨(List.cons.injEq _ _ _ _).mp this |>.1,
                (List.cons.injEq _ _ _ _).mp this |>.2⟩
            rw [← h1.2]
            simp
          | cons d ds =>
            have h1 : d = i ∧ ds ++ j :: j2 :: rest' = tl := by
              have := htl
              simp only [List.cons_append] at this
              exact ⟨(List.cons.injEq _ _ _ _).mp this |>.1,
                (List.cons.injEq _ _ _ _).mp this |>.2⟩
            rw [← h1.2]
            simp
        have hndi : (i :: tl).Nodup := htl ▸ hnd
        intro h
        exact (List.nodup_cons.mp hndi).1 (h ▸ hj2tl)
      have hki : D.getD j 0 = j2 := by rw [hk, hfj]
      have hres : Core.permuteCycleGo (fuel + 1) D i j c =
          Core.permuteCycleGo fuel (D.set j j) i j2
            (Core.swapDimensions c j j2) := by
        conv_lhs => unfold Core.permuteCycleGo
        rw [hki]
        simp [hj2i]
      rw [hres]
      have hswap := swapDimensions_spec c n j j2 hcwf hjn.1 hj2n.1
      have happ : (done ++ [j]) ++ j2 :: rest' = done ++ j :: j2 :: rest' := by simp
      have hih := ih (by simp) (done ++ [j]) fuel (D.set j j)
        (Core.swapDimensions c j j2)
        (by rw [happ]; exact hchain)
        (by rw [happ]; exact hstruct)
        (by
          intro z hz
          exact hlast z (by rw [List.getLast?_cons_cons]; exact hz))
        (by rw [happ]; exact hnd)
        (by
          intro p hp
          exact hsub p (by rw [← happ]; exact hp))
        (by simp [hDlen])
        (by
          intro p hp hcase
          by_cases hpj : p = j
          · rw [hpj]
            exact getD_set_self _ _ _ _ (by rw [hDlen]; exact hjn.1)
          · rw [getD_set_ne _ _ _ _ _ hpj]
            rcases hcase with hv | hmem
            · exact hD1 p hp (Or.inl hv)
            · rcases List.mem_append.mp hmem with h | h
              · exact hD1 p hp (Or.inr h)
              · exact absurd (List.mem_singleton.mp h) hpj)
        (by
          intro p hp hv hmem
          have hpj : p ≠ j := fun h => hmem (by rw [h]; simp)
          rw [getD_set_ne _ _ _ _ _ hpj]
          exact hD2 p hp hv (fun h => hmem (by simp [h])))
        hswap.1
        (by
          intro p hp hcase
          rw [hswap.2 p]
          by_cases hpj : p = j
          · rw [hpj]
            have hsp : swapPos j j2 j = j2 := by simp [swapPos]
            rw [hsp, hfj]
            exact hc3 j2 hj2n.1 hj2n.2 hj2done (Ne.symm hjj2)
          · have hpj2 : p ≠ j2 := by
              intro h
              rcases hcase with hv | hmem
              · exact hj2n.2 (h ▸ hv)
              · rcases List.mem_append.mp hmem with hm | hm
                · exact hj2done (h ▸ hm)
                · exact hpj (List.mem_singleton.mp hm)
            have hsp : swapPos j j2 p = p := by simp [swapPos, hpj, hpj2]
            rw [hsp]
            rcases hcase with hv | hmem
            · exact hc1 p hp (Or.inl hv)
            · rcases List.mem_append.mp hmem with hm | hm
              · exact hc1 p hp (Or.inr hm)
              · exact absurd (List.mem_singleton.mp hm) hpj)
        (by
          have hsp : swapPos j j2 ((j2 :: rest').headD 0) = j := by
            simp [swapPos, Ne.symm hjj2]
          rw [hswap.2, hsp]
          exact hc2)
        (by
          intro p hp hv hmem hphead
          have hpj : p ≠ j := fun h => hmem (by rw [h]; simp)
          have hpj2 : p ≠ j2 := hphead
          have hsp : swapPos j j2 p = p := by simp [swapPos, hpj, hpj2]
          rw [hswap.2, hsp]
          exact hc3 p hp hv (fun h => hmem (by simp [h])) hpj)
        (by
          have := hfuel
          simp at this ⊢
          omega)
      have hmemeq : ∀ p, (p ∈ (done ++ [j]) ++ j2 :: rest') ↔ (p ∈ done ++ j :: j2 :: rest') := by
        intro p
        rw [happ]
      refine ⟨hih.1, ?_, ?_, hih.2.2.2.1, ?_, ?_⟩
      · intro p hp hcase
        exact hih.2.1 p hp (by rw [happ]; exact hcase)
      · intro p hp hv hmem
        exact hih.2.2.1 p hp hv (by rw [happ]; exact hmem)
      · intro p hp hcase
        exact hih.2.2.2.2.1 p hp (by rw [happ]; exact hcase)
      · intro p hp hv hmem
        exact hih.2.2.2.2.2 p hp hv (by rw [happ]; exact hmem)

/-- Position `p` lies on the `f`-orbit of some outer-loop index below `i`. -/
def reached (f : Nat → Nat) (i p : Nat) : Prop :=
  ∃ i', i' < i ∧ ∃ t, f^[t] i' = p

/-- Iterates of a self-map of `[0, n)` stay in `[0, n)`. -/
theorem iterate_lt (n : Nat) (f : Nat → Nat) (hfn : ∀ p, p < n → f p < n) :
    ∀ (t x : Nat), x < n → f^[t] x < n := by
  intro t
  induction t with
  | zero => intro x hx; simpa using hx
  | succ t ih =>
    intro x hx
    rw [Function.iterate_succ_apply']
    exact hfn _ (ih x hx)

/-- Iterates of an injective-on-`[0,n)` self-map cancel. -/
theorem iterate_cancel (n : Nat) (f : Nat → Nat) (hfn : ∀ p, p < n → f p < n)
    (hinj : ∀ p q, p < n → q < n → f p = f q → p = q) :
    ∀ (t x y : Nat), x < n → y < n → f^[t] x = f^[t] y → x = y := by
  intro t
  induction t with
  | zero => intro x y _ _ h; simpa using h
  | succ t ih =>
    intro x y hx hy h
    rw [Function.iterate_succ_apply', Function.iterate_succ_apply'] at h
    exact ih x y hx hy (hinj _ _ (iterate_lt n f hfn t x hx) (iterate_lt n f hfn t y hy) h)

/-- Every point of `[0, n)` returns to itself under a bijective self-map,
within `n` steps, and with a minimal return time the partial orbit is
repetition-free. -/
theorem exists_min_return (n : Nat) (f : Nat → Nat)
    (hfn : ∀ p, p < n → f p < n)
    (hinj : ∀ p q, p < n → q < n → f p = f q → p = q)
    (x : Nat) (hx : x < n) :
    ∃ m, 0 < m ∧ m ≤ n ∧ f^[m] x = x ∧
      ∀ a b, a < b → b < m → f^[a] x ≠ f^[b] x := by
  have hret : ∃ m, 0 < m ∧ m ≤ n ∧ f^[m] x = x := by
    have hmaps : ∀ a ∈ Finset.range (n + 1), f^[a] x ∈ Finset.range n := by
      intro a _
      exact Finset.mem_range.mpr (iterate_lt n f hfn a x hx)
    have hcard : (Finset.range n).card < (Finset.range (n + 1)).card := by
      simp
    obtain ⟨a, ha, b, hb, hab, heq⟩ :=
      Finset.exists_ne_map_eq_of_card_lt_of_maps_to hcard hmaps
    rcases Nat.lt_or_ge a b with hlt | hge
    · refine ⟨b - a, by omega, by
        have := Finset.mem_range.mp hb
        omega, ?_⟩
      have : f^[a] (f^[b - a] x) = f^[a] x := by
        rw [← Function.iterate_add_apply, Nat.add_sub_cancel' (Nat.le_of_lt hlt)]
        exact heq.symm
      exact iterate_cancel n f hfn hinj a _ x (iterate_lt n f hfn _ x hx) hx this
    · have hlt : b < a := by omega
      refine ⟨a - b, by omega, by
        have := Finset.mem_range.mp ha
        omega, ?_⟩
      have : f^[b] (f^[a - b] x) = f^[b] x := by
        rw [← Function.iterate_add_apply, Nat.add_sub_cancel' (Nat.le_of_lt hlt)]
        exact heq
      exact iterate_cancel n f hfn hinj b _ x (iterate_lt n f hfn _ x hx) hx this
  have hdec : DecidablePred (fun m => 0 < m ∧ f^[m] x = x) := by
    intro m
    exact And.decidable
  obtain ⟨m0, hm0pos, hm0n, hm0ret⟩ := hret
  have hex : ∃ m, 0 < m ∧ f^[m] x = x := ⟨m0, hm0pos, hm0ret⟩
  refine ⟨@Nat.find _ hdec hex, (@Nat.find_spec _ hdec hex).1,
    Nat.le_trans (@Nat.find_min' _ hdec hex m0 ⟨hm0pos, hm0ret⟩) hm0n,
    (@Nat.find_spec _ hdec hex).2, ?_⟩
  intro a b hab hbm heq
  have hlt : 0 < b - a ∧ b - a < @Nat.find _ hdec hex := by omega
  have hback : f^[a] (f^[b - a] x) = f^[a] x := by
    rw [← Function.iterate_add_apply, Nat.add_sub_cancel' (Nat.le_of_lt hab)]
    exact heq.symm
  have hx2 : f^[b - a] x = x :=
    iterate_cancel n f hfn hinj a _ x (iterate_lt n f hfn _ x hx) hx hback
  exact @Nat.find_min _ hdec hex _ hlt.2 ⟨hlt.1, hx2⟩

/-- Iterates reduce modulo a return time. -/
theorem iterate_mod_return (f : Nat → Nat) (x m : Nat) (hm : 0 < m)
    (hret : f^[m] x = x) : ∀ t, f^[t] x = f^[t % m] x := by
  intro t
  induction t using Nat.strong_induction_on with
  | _ t ih =>
    rcases Nat.lt_or_ge t m with hlt | hge
    · rw [Nat.mod_eq_of_lt hlt]
    · have h1 : t = (t - m) + m := by omega
      have h2 : f^[t] x = f^[t - m] x := by
        conv_lhs => rw [h1]
        rw [Function.iterate_add_apply, hret]
      rw [h2, ih (t - m) (by omega)]
      congr 1
      conv_rhs => rw [h1]
      rw [Nat.add_mod_right]

/-- Correctness of the outer loop of `permute`: starting from `dim = P`
(as the function `f`) and the original state, after running the remaining
outer iterations every dimension `p < n` of the result reads the original
dimension `f p`. -/
theorem permuteGo_spec (n : Nat) (f : Nat → Nat) (c₀ : Core)
    (hfn : ∀ p, p < n → f p < n)
    (hinj : ∀ p q, p < n → q < n → f p = f q → p = q) :
    ∀ (cnt i : Nat) (D : List Nat) (c : Core),
    i + cnt = n →
    D.length = n →
    (∀ p, p < n → reached f i p → D.getD p 0 = p) →
    (∀ p, p < n → ¬ reached f i p → D.getD p 0 = f p) →
    wfLen c n →
    (∀ p, p < n → reached f i p → dimAt c p = dimAt c₀ (f p)) →
    (∀ p, p < n → ¬ reached f i p → dimAt c p = dimAt c₀ p) →
    wfLen (Core.permuteGo i cnt D c) n ∧
    (∀ p, p < n → dimAt (Core.permuteGo i cnt D c) p = dimAt c₀ (f p)) := by
  intro cnt
  induction cnt with
  | zero =>
    intro i D c hin hDlen hD1 hD2 hcwf hc1 hc2
    refine ⟨hcwf, ?_⟩
    intro p hp
    refine hc1 p hp ⟨p, by omega, 0, ?_⟩
    simp
  | succ cnt ih =>
    intro i D c hin hDlen hD1 hD2 hcwf hc1 hc2
    have hi : i < n := by omega
    have hres : Core.permuteGo i (cnt + 1) D c =
        Core.permuteGo (i + 1) cnt
          (Core.permuteCycleGo (D.length + 1) D i i c).1
          (Core.permuteCycleGo (D.length + 1) D i i c).2 := rfl
    rw [hres]
    by_cases hVi : reached f i i
    · have hDi : D.getD i 0 = i := hD1 i hi hVi
      have hcyc : Core.permuteCycleGo (D.length + 1) D i i c = (D.set i i, c) := by
        rw [hDlen]
        conv_lhs => unfold Core.permuteCycleGo
        rw [hDi]
        simp
      rw [hcyc]
      have hVeq : ∀ p, reached f (i + 1) p ↔ reached f i p := by
        intro p
        constructor
        · rintro ⟨i', hi', t, hFt⟩
          rcases Nat.lt_or_ge i' i with h | h
          · exact ⟨i', h, t, hFt⟩
          · have hii : i' = i := by omega
            subst hii
            obtain ⟨i0, hi0, t0, hF0⟩ := hVi
            exact ⟨i0, hi0, t + t0, by
              rw [Function.iterate_add_apply, hF0]
              exact hFt⟩
        · rintro ⟨i', hi', t, hFt⟩
          exact ⟨i', by omega, t, hFt⟩
      apply ih (i + 1) (D.set i i) c (by omega) (by simp [hDlen])
      · intro p hp hr
        by_cases hpi : p = i
        · rw [hpi]
          exact getD_set_self _ _ _ _ (by rw [hDlen]; exact hi)
        · rw [getD_set_ne _ _ _ _ _ hpi]
          exact hD1 p hp ((hVeq p).mp hr)
      · intro p hp hr
        have hpi : p ≠ i := by
          intro h
          exact hr ⟨i, by omega, 0, by rw [Function.iterate_zero_apply, h]⟩
        rw [getD_set_ne _ _ _ _ _ hpi]
        exact hD2 p hp (fun hx => hr ((hVeq p).mpr hx))
      · exact hcwf
      · intro p hp hr
        exact hc1 p hp ((hVeq p).mp hr)
      · intro p hp hr
        exact hc2 p hp (fun hx => hr ((hVeq p).mpr hx))
    · obtain ⟨m, hm0, hmn, hmret, hmnd⟩ := exists_min_return n f hfn hinj i hi
      have hmem_path : ∀ p, p ∈ (List.range m).map (fun t => f^[t] i) ↔
          ∃ t, t < m ∧ f^[t] i = p := by
        intro p
        simp only [List.mem_map, List.mem_range]
      have hnotV : ∀ p, p ∈ (List.range m).map (fun t => f^[t] i) →
          p < n ∧ ¬ reached f i p := by
        intro p hp
        obtain ⟨t, htm, hft⟩ := (hmem_path p).mp hp
        refine ⟨hft ▸ iterate_lt n f hfn t i hi, ?_⟩
        rintro ⟨i', hi', t', hft'⟩
        apply hVi
        refine ⟨i', hi', (m - t) + t', ?_⟩
        rw [Function.iterate_add_apply, hft', ← hft, ← Function.iterate_add_apply]
        have hmt : m - t + t = m := by omega
        rw [hmt, hmret]
      have hhd : ((List.range m).map (fun t => f^[t] i)).headD 0 = i := by
        cases m with
        | zero => omega
        | succ k =>
          rw [List.range_succ_eq_map]
          simp
      have hchain : List.Chain' (fun a b => f a = b)
          ([] ++ (List.range m).map (fun t => f^[t] i)) := by
        rw [List.nil_append, List.chain'_map]
        cases m with
        | zero => simp
        | succ k =>
          rw [List.chain'_range_succ]
          intro t ht
          exact (Function.iterate_succ_apply' f t i).symm
      have hstruct : ∃ tl, [] ++ (List.range m).map (fun t => f^[t] i) = i :: tl := by
        cases m with
        | zero => omega
        | succ k =>
          rw [List.nil_append, List.range_succ_eq_map]
          exact ⟨((List.range k).map Nat.succ).map (fun t => f^[t] i), rfl⟩
      have hlast : ∀ z, ((List.range m).map (fun t => f^[t] i)).getLast? = some z →
          f z = i := by
        intro z hz
        cases m with
        | zero => omega
        | succ k =>
          rw [List.range_succ, List.map_append] at hz
          simp only [List.map_cons, List.map_nil] at hz
          rw [List.getLast?_concat] at hz
          have hzk : z = f^[k] i := by
            simpa using hz.symm
          rw [hzk, ← Function.iterate_succ_apply' f k i]
          exact hmret
      have hnd : ([] ++ (List.range m).map (fun t => f^[t] i)).Nodup := by
        rw [List.nil_append]
        apply List.Nodup.map_on ?_ (List.nodup_range m)
        intro a ha b hb heq
        simp only [List.mem_range] at ha hb
        rcases Nat.lt_trichotomy a b with h | h | h
        · exact absurd heq (hmnd a b h hb)
        · exact h
        · exact absurd heq.symm (hmnd b a h ha)
      have hinner := permuteCycleGo_spec n f (reached f i) c₀ i
        ((List.range m).map (fun t => f^[t] i)) (by simp; omega)
        [] (D.length + 1) D c
        hchain hstruct hlast hnd
        (by
          intro p hp
          exact hnotV p (by simpa using hp))
        hDlen
        (by
          intro p hp hcase
          rcases hcase with hv | hmem
          · exact hD1 p hp hv
          · exact absurd hmem (List.not_mem_nil p))
        (by
          intro p hp hv _
          exact hD2 p hp hv)
        hcwf
        (by
          intro p hp hcase
          rcases hcase with hv | hmem
          · exact hc1 p hp hv
          · exact absurd hmem (List.not_mem_nil p))
        (by
          rw [hhd]
          exact hc2 i hi hVi)
        (by
          intro p hp hv _ _
          exact hc2 p hp hv)
        (by
          simp [hDlen]
          omega)
      rw [hhd] at hinner
      have hVeq : ∀ p, reached f (i + 1) p ↔
          (reached f i p ∨ p ∈ (List.range m).map (fun t => f^[t] i)) := by
        intro p
        constructor
        · rintro ⟨i', hi', t, hFt⟩
          rcases Nat.lt_or_ge i' i with h | h
          · exact Or.inl ⟨i', h, t, hFt⟩
          · have hii : i' = i := by omega
            rw [hii] at hFt
            refine Or.inr ((hmem_path p).mpr ⟨t % m, Nat.mod_lt _ hm0, ?_⟩)
            rw [← iterate_mod_return f i m hm0 hmret t]
            exact hFt
        · rintro (⟨i', hi', t, hFt⟩ | hmem)
          · exact ⟨i', by omega, t, hFt⟩
          · obtain ⟨t, _, hft⟩ := (hmem_path p).mp hmem
            exact ⟨i, by omega, t, hft⟩
      apply ih (i + 1) _ _ (by omega) hinner.1
      · intro p hp hr
        apply hinner.2.1 p hp
        rcases (hVeq p).mp hr with hv | hmem
        · exact Or.inl hv
        · exact Or.inr (by simpa using hmem)
      · intro p hp hr
        apply hinner.2.2.1 p hp
        · intro hv
          exact hr ((hVeq p).mpr (Or.inl hv))
        · intro hmem
          exact hr ((hVeq p).mpr (Or.inr (by simpa using hmem)))
      · exact hinner.2.2.2.1
      · intro p hp hr
        apply hinner.2.2.2.2.1 p hp
        rcases (hVeq p).mp hr with hv | hmem
        · exact Or.inl hv
        · exact Or.inr (by simpa using hmem)
      · intro p hp hr
        apply hinner.2.2.2.2.2 p hp
        · intro hv
          exact hr ((hVeq p).mpr (Or.inl hv))
        · intro hmem
          exact hr ((hVeq p).mpr (Or.inr (by simpa using hmem)))

/-- Two views with dense length `n` and the same dimension descriptors are
equal. -/
theorem core_ext (c₁ c₂ : Core) (n : Nat) (h1 : wfLen c₁ n) (h2 : wfLen c₂ n)
    (h : ∀ p, p < n → dimAt c₁ p = dimAt c₂ p) : c₁ = c₂ := by
  obtain ⟨hf1, hst1, hsz1, hi1⟩ := h1
  obtain ⟨hf2, hst2, hsz2, hi2⟩ := h2
  have hcell : ∀ p, p < n →
      c₁.first.getD p JsVal.undef = c₂.first.getD p JsVal.undef ∧
      c₁.step.getD p JsVal.undef = c₂.step.getD p JsVal.undef ∧
      c₁.size.getD p 1 = c₂.size.getD p 1 ∧
      c₁.indices.getD p none = c₂.indices.getD p none := by
    intro p hp
    have := h p hp
    simp only [dimAt, Prod.mk.injEq] at this
    exact ⟨this.1, this.2.1, this.2.2.1, this.2.2.2⟩
  obtain ⟨a1, b1, d1, e1⟩ := c₁
  obtain ⟨a2, b2, d2, e2⟩ := c₂
  simp only at hf1 hst1 hsz1 hi1 hf2 hst2 hsz2 hi2 hcell
  have hmk : ∀ {α : Type} (l₁ l₂ : List α) (d : α),
      l₁.length = n → l₂.length = n →
      (∀ p, p < n → l₁.getD p d = l₂.getD p d) → l₁ = l₂ := by
    intro α l₁ l₂ d hl1 hl2 hc
    apply List.ext_getElem (by omega)
    intro p hp1 hp2
    have hpn : p < n := by omega
    have := hc p hpn
    rwa [List.getD_eq_getElem l₁ d hp1, List.getD_eq_getElem l₂ d hp2] at this
  have ef : a1 = a2 := hmk a1 a2 JsVal.undef hf1 hf2 (fun p hp => (hcell p hp).1)
  have est : b1 = b2 := hmk b1 b2 JsVal.undef hst1 hst2 (fun p hp => (hcell p hp).2.1)
  have esz : d1 = d2 := hmk d1 d2 1 hsz1 hsz2 (fun p hp => (hcell p hp).2.2.1)
  have eix : e1 = e2 := hmk e1 e2 none hi1 hi2 (fun p hp => (hcell p hp).2.2.2)
  rw [ef, est, esz, eix]

/-- Reading a `map` through `getD`, in range. -/
theorem getD_map {α β : Type} (f : α → β) (l : List α) (p : Nat) (d : β) (d' : α)
    (h : p < l.length) :
    (l.map f).getD p d = f (l.getD p d') := by
  rw [List.getD_eq_getElem (l.map f) d (by simpa using h),
      List.getD_eq_getElem l d' h, List.getElem_map]

/-- Shape and cells of `gatherCore`. -/
theorem gatherCore_spec (P : List Nat) (c : Core) (n : Nat) (hPlen : P.length = n) :
    wfLen (gatherCore P c) n ∧
    ∀ p, p < n → dimAt (gatherCore P c) p = dimAt c (P.getD p 0) := by
  constructor
  · exact ⟨by simp [gatherCore, hPlen], by simp [gatherCore, hPlen],
      by simp [gatherCore, hPlen], by simp [gatherCore, hPlen]⟩
  · intro p hp
    have hpl : p < P.length := by omega
    simp only [gatherCore, dimAt]
    rw [getD_map _ _ _ _ 0 hpl, getD_map _ _ _ _ 0 hpl,
        getD_map _ _ _ _ 0 hpl, getD_map _ _ _ _ 0 hpl]

/-- On any view of dense rank `n` and any `dim` array that is a permutation of
`[0, n)`, `permute` succeeds and gathers: dimension `i` of the result is
dimension `dim[i]` of the input. -/
theorem permute_eq_gather (P : List Nat) (c : Core) (n : Nat)
    (hwf : wfLen c n) (hperm : P.Perm (List.range n)) :
    Core.permute P c = some (gatherCore P c) := by
  have hPlen : P.length = n := by
    have := hperm.length_eq
    simpa using this
  have hmemP : ∀ x, x ∈ P ↔ x < n := by
    intro x
    rw [hperm.mem_iff, List.mem_range]
  have hnd : P.Nodup := hperm.nodup_iff.mpr (List.nodup_range n)
  have hdim : c.getDimLength = n := hwf.2.2.1
  have hfn : ∀ p, p < n → P.getD p 0 < n := by
    intro p hp
    have hpl : p < P.length := by omega
    rw [List.getD_eq_getElem P 0 hpl]
    exact (hmemP _).mp (List.getElem_mem hpl)
  have hinj : ∀ p q, p < n → q < n → P.getD p 0 = P.getD q 0 → p = q := by
    intro p q hp hq h
    have hpl : p < P.length := by omega
    have hql : q < P.length := by omega
    rw [List.getD_eq_getElem P 0 hpl, List.getD_eq_getElem P 0 hql] at h
    exact (List.Nodup.getElem_inj_iff hnd).mp h
  have hspec := permuteGo_spec n (fun p => P.getD p 0) c hfn hinj n 0 P c
    (by omega) hPlen
    (by
      intro p hp hr
      obtain ⟨j, hj, _⟩ := hr
      omega)
    (by intro p hp _; rfl)
    hwf
    (by
      intro p hp hr
      obtain ⟨j, hj, _⟩ := hr
      omega)
    (by intro p hp _; rfl)
  have hvalid : (List.range P.length).all (fun i => P.any (fun x => x = i)) = true := by
    rw [List.all_eq_true]
    intro i hi
    rw [List.any_eq_true]
    have hin : i < n := by
      rw [List.mem_range] at hi
      omega
    exact ⟨i, (hmemP i).mpr hin, by simp⟩
  have hg := gatherCore_spec P c n hPlen
  have heq : Core.permuteGo 0 P.length P c = gatherCore P c := by
    rw [hPlen]
    exact core_ext _ _ n hspec.1 hg.1
      (fun p hp => (hspec.2 p hp).trans ((hg.2 p hp).symm))
  rw [Core.permute, if_neg (by omega), if_neg (by simp [hvalid]), heq]

/-- `argsort` returns a permutation of `[0, P.length)`. -/
theorem argsort_perm (P : List Nat) : (Core.argsort P).Perm (List.range P.length) :=
  List.perm_insertionSort _ _

/-- Reading the whole list back through `getD` over `range`. -/
theorem map_getD_range (P : List Nat) (n : Nat) (hn : P.length = n) :
    (List.range n).map (fun p => P.getD p 0) = P := by
  apply List.ext_getElem (by simp [hn])
  intro p hp1 hp2
  rw [List.getElem_map, List.getElem_range]
  exact List.getD_eq_getElem P 0 hp2

/-- The defining property of `argsort` on a permutation `P` of `[0, n)`:
`P[argsort(P)[idx]] = idx`.  The comparator keys are distinct, so the sorted
key sequence is exactly `0, 1, …, n-1`. -/
theorem argsort_key (P : List Nat) (n : Nat) (hperm : P.Perm (List.range n)) :
    ∀ idx, idx < n → P.getD ((Core.argsort P).getD idx 0) 0 = idx := by
  have hPlen : P.length = n := by simpa using hperm.length_eq
  have hlen : (Core.argsort P).length = n := by
    rw [Core.argsort, List.length_insertionSort, List.length_range, hPlen]
  haveI hT : IsTotal Nat (fun a b => P.getD a 0 ≤ P.getD b 0) :=
    ⟨fun a b => Nat.le_total _ _⟩
  haveI hTr : IsTrans Nat (fun a b => P.getD a 0 ≤ P.getD b 0) :=
    ⟨fun _ _ _ hab hbc => Nat.le_trans hab hbc⟩
  have hsorted : List.Sorted (fun a b => P.getD a 0 ≤ P.getD b 0) (Core.argsort P) :=
    List.sorted_insertionSort _ _
  have hQsorted : List.Sorted (· ≤ ·) ((Core.argsort P).map (fun a => P.getD a 0)) := by
    rw [List.Sorted, List.pairwise_map]
    exact hsorted
  have hQperm : ((Core.argsort P).map (fun a => P.getD a 0)).Perm (List.range n) := by
    have h1 := (argsort_perm P).map (fun a => P.getD a 0)
    rw [hPlen, map_getD_range P n hPlen] at h1
    exact h1.trans hperm
  have hRsorted : List.Sorted (· ≤ ·) (List.range n) := by
    rw [List.Sorted]
    exact (List.pairwise_lt_range n).imp (fun h => Nat.le_of_lt h)
  haveI hA : IsAntisymm Nat (· ≤ ·) := ⟨fun _ _ hab hba => Nat.le_antisymm hab hba⟩
  have hQeq : (Core.argsort P).map (fun a => P.getD a 0) = List.range n :=
    List.eq_of_perm_of_sorted hQperm hQsorted hRsorted
  intro idx hidx
  have hil : idx < (Core.argsort P).length := by omega
  have := congrArg (fun l => l.getD idx 0) hQeq
  simp only at this
  rw [getD_map _ _ _ _ 0 hil] at this
  rw [this, List.getD_eq_getElem _ 0 (by simpa using hidx), List.getElem_range]

/-- C1: on a view whose four descriptor arrays all have dense length `n`,
permuting by any `dim` that is a permutation of `[0, n)` and then applying
`ipermute` with the same `dim` restores the view exactly, so every offset
enumeration (and hence `extractFrom`/`extractTo` data movement) of the
round-tripped view agrees with the original. -/
theorem claim1_permute_ipermute_roundtrip (P : List Nat) (c : Core) (n : Nat)
    (hwf : wfLen c n) (hperm : P.Perm (List.range n)) :
    ∃ c₁ c₂, Core.permute P c = some c₁ ∧ Core.ipermute P c₁ = some c₂ ∧
      c₂ = c ∧ ∀ fuel, enumOffsets c₂ fuel = enumOffsets c fuel := by
  have hPlen : P.length = n := by simpa using hperm.length_eq
  have h1 := permute_eq_gather P c n hwf hperm
  have hg1 := gatherCore_spec P c n hPlen
  have hAperm : (Core.argsort P).Perm (List.range n) := by
    have := argsort_perm P
    rwa [hPlen] at this
  have hAlen : (Core.argsort P).length = n := by simpa using hAperm.length_eq
  have h2 := permute_eq_gather (Core.argsort P) (gatherCore P c) n hg1.1 hAperm
  have hg2 := gatherCore_spec (Core.argsort P) (gatherCore P c) n hAlen
  have hback : gatherCore (Core.argsort P) (gatherCore P c) = c := by
    apply core_ext _ _ n hg2.1 hwf
    intro p hp
    rw [hg2.2 p hp]
    have ha : (Core.argsort P).getD p 0 < n := by
      have hpl : p < (Core.argsort P).length := by omega
      rw [List.getD_eq_getElem _ 0 hpl]
      have hm : (Core.argsort P)[p] ∈ Core.argsort P := List.getElem_mem hpl
      rw [hAperm.mem_iff, List.mem_range] at hm
      exact hm
    rw [hg1.2 _ ha, argsort_key P n hperm p hp]
  refine ⟨gatherCore P c, c, h1, ?_, rfl, fun _ => rfl⟩
  rw [Core.ipermute, h2, hback]

theorem claim1_permute_ipermute_roundtrip_witness :
    wfLen ⟨[JsVal.num 0, JsVal.num 0, JsVal.num 0],
           [JsVal.num 1, JsVal.num 2, JsVal.num 4],
           [2, 2, 2], [none, none, none]⟩ 3 ∧
    List.Perm [2, 1, 0] (List.range 3) ∧
    (∃ c₁ c₂,
      Core.permute [2, 1, 0]
        ⟨[JsVal.num 0, JsVal.num 0, JsVal.num 0],
         [JsVal.num 1, JsVal.num 2, JsVal.num 4],
         [2, 2, 2], [none, none, none]⟩ = some c₁ ∧
      Core.ipermute [2, 1, 0] c₁ = some c₂ ∧
      c₂ = ⟨[JsVal.num 0, JsVal.num 0, JsVal.num 0],
            [JsVal.num 1, JsVal.num 2, JsVal.num 4],
            [2, 2, 2], [none, none, none]⟩ ∧
      ∀ fuel, enumOffsets c₂ fuel =
        enumOffsets ⟨[JsVal.num 0, JsVal.num 0, JsVal.num 0],
                     [JsVal.num 1, JsVal.num 2, JsVal.num 4],
                     [2, 2, 2], [none, none, none]⟩ fuel) :=
  ⟨⟨rfl, rfl, rfl, rfl⟩, by decide,
   claim1_permute_ipermute_roundtrip [2, 1, 0]
     ⟨[JsVal.num 0, JsVal.num 0, JsVal.num 0],
      [JsVal.num 1, JsVal.num 2, JsVal.num 4],
      [2, 2, 2], [none, none, none]⟩ 3 ⟨rfl, rfl, rfl, rfl⟩ (by decide)⟩
